import Mathlib

/-!
Verification of the PrismScene rendering engine (src/script.js).

The JavaScript source is shallowly embedded.  Functions that use only field
operations and comparisons are embedded generically over a linear ordered
field (so the theorems cover both the exact-rational and the real reading of
the float arithmetic, and witnesses can be evaluated over ℤ or ℚ); functions
that take square roots (vector length, normalisation, refraction) are
embedded over ℝ.  Stateful fragments (the FPS monitor, the spring
integrator, the per-frame entry test) become explicit state-passing
functions.  Each definition mirrors one source function and keeps its name.
-/

namespace PrismScene

/-! ## 2D points

`vec2(x, y)` objects from script.js. -/

structure Vec2 (α : Type) where
  x : α
  y : α
deriving DecidableEq, Repr

section Vec2Ops

variable {α : Type} [LinearOrderedField α]

/-- Embeds `add(v1, v2)` from script.js. -/
def add (v1 v2 : Vec2 α) : Vec2 α := ⟨v1.x + v2.x, v1.y + v2.y⟩

/-- Embeds `sub(v1, v2)` from script.js. -/
def sub (v1 v2 : Vec2 α) : Vec2 α := ⟨v1.x - v2.x, v1.y - v2.y⟩

/-- Embeds `mul(v, s)` from script.js. -/
def mul (v : Vec2 α) (s : α) : Vec2 α := ⟨v.x * s, v.y * s⟩

/-- Embeds `dot(v1, v2)` from script.js. -/
def dot (v1 v2 : Vec2 α) : α := v1.x * v2.x + v1.y * v2.y

/-- Embeds `reflect(dir, normal)` from script.js. -/
def reflect (dir normal : Vec2 α) : Vec2 α :=
  sub dir (mul normal (2 * dot dir normal))

/-- Embeds `crossProduct(o, a, b)` from script.js:
`(a.x - o.x) * (b.y - o.y) - (a.y - o.y) * (b.x - o.x)`. -/
def crossProduct (o a b : Vec2 α) : α :=
  (a.x - o.x) * (b.y - o.y) - (a.y - o.y) * (b.x - o.x)

/-- Comparator used by `points.slice().sort(...)` in `getConvexHull`:
ascending by `x`, ties broken ascending by `y`. -/
def lexLE (a b : Vec2 α) : Prop :=
  a.x < b.x ∨ (a.x = b.x ∧ a.y ≤ b.y)

instance : DecidableRel (lexLE (α := α)) := fun a b => by
  unfold lexLE
  infer_instance

/-- The sort in `getConvexHull`: `points.slice().sort(function(a, b) {...})`.
The comparator is a total preorder whose ties are exact duplicates, so the
sorted permutation is unique; it is realised by insertion sort. -/
def sortPoints (points : List (Vec2 α)) : List (Vec2 α) :=
  points.insertionSort lexLE

/-- Embeds the inner `while` loop of each chain pass of `getConvexHull`:
`while (st.length >= 2 && crossProduct(st[st.length-2], st[st.length-1], q) <= 0) st.pop()`.
The stack is held head-first (head = top of the JS array). -/
def popWhile (q : Vec2 α) : List (Vec2 α) → List (Vec2 α)
  | [] => []
  | b :: rest =>
    match rest with
    | a :: _ => if crossProduct a b q ≤ 0 then popWhile q rest else b :: rest
    | [] => [b]

/-- One iteration of a chain-building loop of `getConvexHull`: pop while the
turn is non-left, then `push(q)`. -/
def chainStep (q : Vec2 α) (st : List (Vec2 α)) : List (Vec2 α) :=
  q :: popWhile q st

/-- Runs a full chain-building pass of `getConvexHull` over a point list,
returning the stack (head = top, so the chain in traversal order is the
reverse). -/
def buildChain (pts : List (Vec2 α)) : List (Vec2 α) :=
  pts.foldl (fun st q => chainStep q st) []

/-- Embeds `getConvexHull(points)` from script.js: inputs of length ≤ 3 are
returned unchanged; otherwise sort, build the two monotone chains, drop the
last point of each (`lower.pop(); upper.pop()`) and concatenate. -/
def getConvexHull (points : List (Vec2 α)) : List (Vec2 α) :=
  if points.length ≤ 3 then points
  else
    let sorted := sortPoints points
    let lower := (buildChain sorted).reverse
    let upper := (buildChain sorted.reverse).reverse
    lower.dropLast ++ upper.dropLast

/-- A ray–segment hit as returned by `intersectRaySegment`: the ray
parameter `t` and the hit point. -/
structure SegHit (α : Type) where
  t : α
  point : Vec2 α
deriving Repr

/-- Embeds `intersectRaySegment(rayOrigin, rayDir, p1, p2)` from script.js. -/
def intersectRaySegment (rayOrigin rayDir p1 p2 : Vec2 α) : Option (SegHit α) :=
  let v1 := sub rayOrigin p1
  let v2 := sub p2 p1
  let v3 : Vec2 α := ⟨-rayDir.y, rayDir.x⟩
  let d := dot v2 v3
  if |d| < 1 / 100000 then none
  else
    let t1 := (v2.x * v1.y - v2.y * v1.x) / d
    let t2 := dot v1 v3 / d
    if 0 ≤ t1 ∧ 0 ≤ t2 ∧ t2 ≤ 1 then some ⟨t1, add rayOrigin (mul rayDir t1)⟩
    else none

end Vec2Ops

/-! ## Convex hull verification (C4) -/

section HullProof

variable {α : Type} [LinearOrderedField α]

/-- Two `Vec2`s with equal components are equal. -/
theorem Vec2.ext_xy {a b : Vec2 α} (hx : a.x = b.x) (hy : a.y = b.y) : a = b := by
  cases a
  cases b
  cases hx
  cases hy
  rfl

theorem lexLE_refl (a : Vec2 α) : lexLE a a := Or.inr ⟨rfl, le_refl _⟩

theorem lexLE_trans {a b c : Vec2 α} (h1 : lexLE a b) (h2 : lexLE b c) : lexLE a c := by
  rcases h1 with h1 | ⟨e1, h1⟩ <;> rcases h2 with h2 | ⟨e2, h2⟩
  · exact Or.inl (h1.trans h2)
  · exact Or.inl (e2 ▸ h1)
  · exact Or.inl (by rw [e1]; exact h2)
  · exact Or.inr ⟨e1.trans e2, h1.trans h2⟩

theorem lexLE_antisymm {a b : Vec2 α} (h1 : lexLE a b) (h2 : lexLE b a) : a = b := by
  rcases h1 with h1 | ⟨e1, h1⟩ <;> rcases h2 with h2 | ⟨e2, h2⟩
  · exact absurd h2 (lt_asymm h1)
  · exact absurd e2 (ne_of_gt h1)
  · exact absurd e1 (ne_of_gt h2)
  · exact Vec2.ext_xy e1 (le_antisymm h1 h2)

theorem lexLE_total (a b : Vec2 α) : lexLE a b ∨ lexLE b a := by
  rcases lt_trichotomy a.x b.x with h | h | h
  · exact Or.inl (Or.inl h)
  · rcases le_total a.y b.y with h2 | h2
    · exact Or.inl (Or.inr ⟨h, h2⟩)
    · exact Or.inr (Or.inr ⟨h.symm, h2⟩)
  · exact Or.inr (Or.inl h)

/-- Strict version of the sort comparator. -/
def lexLT (a b : Vec2 α) : Prop :=
  a.x < b.x ∨ (a.x = b.x ∧ a.y < b.y)

theorem lexLT_of_le_ne {a b : Vec2 α} (h : lexLE a b) (hne : a ≠ b) : lexLT a b := by
  rcases h with h | ⟨e, h⟩
  · exact Or.inl h
  · rcases lt_or_eq_of_le h with h2 | h2
    · exact Or.inr ⟨e, h2⟩
    · exact absurd (Vec2.ext_xy e h2) hne

theorem lexLE_x {a b : Vec2 α} (h : lexLE a b) : a.x ≤ b.x := by
  rcases h with h | ⟨e, _⟩
  · exact h.le
  · exact e.le

/-! ### Cross-product zero lemmas and the cyclic identity -/

theorem cross_oao (o a : Vec2 α) : crossProduct o a o = 0 := by
  unfold crossProduct
  ring

theorem cross_obb (o b : Vec2 α) : crossProduct o b b = 0 := by
  unfold crossProduct
  ring

theorem cross_oob (o b : Vec2 α) : crossProduct o o b = 0 := by
  unfold crossProduct
  ring

theorem cross_cyclic (a b c : Vec2 α) : crossProduct a b c = crossProduct b c a := by
  unfold crossProduct
  ring

/-! ### The four edge-coverage lemmas and the wedge lemma

These are the geometric core of the monotone-chain verification.  Each is
a sign analysis of an algebraic identity between cross products of points
ordered by the sort comparator. -/

/-- Walking down a convex chain towards lex-smaller points, a strict
left-turn test against a lex-larger query point propagates. -/
theorem cover_prop {a b c q : Vec2 α} (hab : lexLE a b) (hbc : lexLE b c)
    (hcq : lexLE c q) (hconv : 0 < crossProduct a b c) (hq : 0 < crossProduct b c q) :
    0 < crossProduct a b q := by
  have hid : (c.x - b.x) * (crossProduct a b q - crossProduct a b c) =
      (q.x - c.x) * crossProduct a b c + (b.x - a.x) * crossProduct b c q := by
    unfold crossProduct
    ring
  have hab' : a.x ≤ b.x := lexLE_x hab
  have hbc' : b.x ≤ c.x := lexLE_x hbc
  have hcq' : c.x ≤ q.x := lexLE_x hcq
  rcases lt_or_eq_of_le hbc' with hlt | heq
  · nlinarith [mul_nonneg (sub_nonneg.mpr hcq') hconv.le,
      mul_nonneg (sub_nonneg.mpr hab') hq.le]
  · have hy : b.y ≤ c.y := by
      rcases hbc with h | ⟨_, h⟩
      · exact absurd heq (ne_of_lt h)
      · exact h
    have : crossProduct b c q = -((c.y - b.y) * (q.x - b.x)) := by
      unfold crossProduct
      rw [← heq]
      ring
    nlinarith [mul_nonneg (sub_nonneg.mpr hy) (sub_nonneg.mpr (heq ▸ hcq'))]

/-- After pops, the freshly exposed top edge towards the query point covers
every already-processed point (Plücker three-term sign argument).  Here `s`
is the second stack element, `B` the new top, `v` the last popped point. -/
theorem popped_edge_cover {s B v q p : Vec2 α}
    (hconv : 0 < crossProduct s B v) (hstop : 0 < crossProduct s B q)
    (hpop : crossProduct B v q ≤ 0) (hp1 : 0 ≤ crossProduct s B p)
    (hp2 : 0 ≤ crossProduct B v p) : 0 ≤ crossProduct B q p := by
  have hid : crossProduct s B v * crossProduct B q p =
      crossProduct s B q * crossProduct B v p -
        crossProduct s B p * crossProduct B v q := by
    unfold crossProduct
    ring
  nlinarith [mul_nonneg hstop.le hp2, mul_nonneg hp1 (neg_nonneg.mpr hpop)]

/-- When no pop happens, the new top edge from the stack top `t` to the query
point `q` covers every processed point `p` (all of which are lex at most `t`). -/
theorem top_edge_cover {s t q p : Vec2 α} (hst : lexLE s t) (htq : lexLE t q)
    (hpt : lexLE p t) (hstop : 0 < crossProduct s t q)
    (hp : 0 ≤ crossProduct s t p) : 0 ≤ crossProduct t q p := by
  have hid : (t.x - s.x) * crossProduct t q p =
      (p.x - t.x) * (-crossProduct s t q) + (q.x - t.x) * crossProduct s t p := by
    unfold crossProduct
    ring
  have hst' : s.x ≤ t.x := lexLE_x hst
  have htq' : t.x ≤ q.x := lexLE_x htq
  have hpt' : p.x ≤ t.x := lexLE_x hpt
  rcases lt_or_eq_of_le hst' with hlt | heq
  · nlinarith [mul_nonneg (sub_nonneg.mpr hpt') hstop.le,
      mul_nonneg (sub_nonneg.mpr htq') hp]
  · have hy : s.y ≤ t.y := by
      rcases hst with h | ⟨_, h⟩
      · exact absurd heq (ne_of_lt h)
      · exact h
    have : crossProduct s t q = -((t.y - s.y) * (q.x - s.x)) := by
      unfold crossProduct
      rw [← heq]
      ring
    nlinarith [mul_nonneg (sub_nonneg.mpr hy) (sub_nonneg.mpr (heq ▸ htq'))]

/-- When the stack has been popped down to its bottom element `c1`, the new
edge from `c1` to the query point covers every processed point.  `c2` is the
point popped last (originally directly above `c1`). -/
theorem bottom_edge_cover {c1 c2 q p : Vec2 α} (h12 : lexLE c1 c2) (hne : c1 ≠ c2)
    (h1p : lexLE c1 p) (hpq : lexLE p q) (hpop : crossProduct c1 c2 q ≤ 0)
    (hp : 0 ≤ crossProduct c1 c2 p) : 0 ≤ crossProduct c1 q p := by
  have hid : (c2.x - c1.x) * crossProduct c1 q p =
      (p.x - c1.x) * (-crossProduct c1 c2 q) + (q.x - c1.x) * crossProduct c1 c2 p := by
    unfold crossProduct
    ring
  have h12' : c1.x ≤ c2.x := lexLE_x h12
  have h1p' : c1.x ≤ p.x := lexLE_x h1p
  have hpq' : p.x ≤ q.x := lexLE_x hpq
  rcases lt_or_eq_of_le h12' with hlt | heq
  · nlinarith [mul_nonneg (sub_nonneg.mpr h1p') (neg_nonneg.mpr hpop),
      mul_nonneg (sub_nonneg.mpr (h1p'.trans hpq')) hp]
  · have hy : c1.y < c2.y := by
      rcases h12 with h | ⟨_, h⟩
      · exact absurd heq (ne_of_lt h)
      · rcases lt_or_eq_of_le h with h2 | h2
        · exact h2
        · exact absurd (Vec2.ext_xy heq h2) hne
    have hpx : p.x = c1.x := by
      have : crossProduct c1 c2 p = -((c2.y - c1.y) * (p.x - c1.x)) := by
        unfold crossProduct
        rw [← heq]
        ring
      nlinarith
    have hpy : c1.y ≤ p.y := by
      rcases h1p with h | ⟨_, h⟩
      · exact absurd hpx.symm (ne_of_lt h)
      · exact h
    have hgoal : crossProduct c1 q p = (q.x - c1.x) * (p.y - c1.y) := by
      unfold crossProduct
      rw [hpx]
      ring
    rw [hgoal]
    exact mul_nonneg (sub_nonneg.mpr (hpx ▸ hpq')) (sub_nonneg.mpr hpy)

/-- Scalar core of the wedge lemma, phrased over the eight coordinates of
the difference vectors `A = v - a`, `B = b - v`, `P = x - v`, `Q = q - v`. -/
theorem wedge_core {Ax Ay Bx By Px Py Qx Qy : α}
    (hA : 0 < Ax ∨ (Ax = 0 ∧ 0 ≤ Ay)) (hB : 0 < Bx ∨ (Bx = 0 ∧ 0 ≤ By))
    (hconv : 0 < Ax * By - Ay * Bx)
    (hx1 : 0 ≤ Ax * Py - Ay * Px) (hx2 : 0 ≤ Bx * Py - By * Px)
    (hq1 : 0 ≤ Ax * Qy - Ay * Qx) (hq2 : 0 ≤ Bx * Qy - By * Qx)
    (hP : Px < 0 ∨ (Px = 0 ∧ Py < 0)) (hQ : 0 < Qx ∨ (Qx = 0 ∧ 0 < Qy)) :
    0 < Qx * Py - Qy * Px := by
  rcases hP with hPx | ⟨hPx, hPy⟩
  · rcases hQ with hQx | ⟨hQx, hQy⟩
    · -- Px < 0, Qx > 0: the main case
      have hBx : 0 ≤ Bx := by rcases hB with h | ⟨h, _⟩; exacts [h.le, h.ge]
      have hAx : 0 < Ax := by
        rcases hA with h | ⟨h0, hAy⟩
        · exact h
        · exfalso
          have hAy0 : Ay = 0 := by nlinarith
          nlinarith
      have hAQ : 0 < Ax * Qy - Ay * Qx := by
        have hid : Bx * (Ax * Qy - Ay * Qx) =
            Qx * (Ax * By - Ay * Bx) + Ax * (Bx * Qy - By * Qx) := by ring
        nlinarith [mul_pos hQx hconv, mul_nonneg hAx.le hq2]
      have hid2 : Ax * (Qx * Py - Qy * Px) =
          Qx * (Ax * Py - Ay * Px) + (-Px) * (Ax * Qy - Ay * Qx) := by ring
      nlinarith [mul_nonneg hQx.le hx1, mul_pos (by linarith : (0:α) < -Px) hAQ]
    · -- Px < 0, Qx = 0, Qy > 0
      have : Qx * Py - Qy * Px = Qy * (-Px) := by rw [hQx]; ring
      rw [this]
      exact mul_pos hQy (by linarith)
  · -- Px = 0, Py < 0: contradicts convexity of the corner
    exfalso
    have hAx0 : Ax = 0 := by
      rcases hA with h | ⟨h, _⟩
      · exfalso
        rw [hPx] at hx1
        nlinarith
      · exact h
    have hBx0 : Bx = 0 := by
      rcases hB with h | ⟨h, _⟩
      · exfalso
        rw [hPx] at hx2
        nlinarith
      · exact h
    rw [hAx0, hBx0] at hconv
    nlinarith

theorem lexLE_sub {a b : Vec2 α} (h : lexLE a b) :
    0 < b.x - a.x ∨ (b.x - a.x = 0 ∧ 0 ≤ b.y - a.y) := by
  rcases h with h | ⟨e, h⟩
  · exact Or.inl (sub_pos.mpr h)
  · exact Or.inr ⟨by rw [e, sub_self], sub_nonneg.mpr h⟩

theorem lexLT_sub {a b : Vec2 α} (h : lexLT a b) :
    0 < b.x - a.x ∨ (b.x - a.x = 0 ∧ 0 < b.y - a.y) := by
  rcases h with h | ⟨e, h⟩
  · exact Or.inl (sub_pos.mpr h)
  · exact Or.inr ⟨by rw [e, sub_self], sub_pos.mpr h⟩

/-- The wedge lemma: a convex chain vertex `v` with chain neighbours `a`
(lex-below) and `b` (lex-above) whose two incident edges cover both `x` and
`q` makes a strict left turn at `x → v → q` whenever `x` is lex-strictly
below `v` and `q` lex-strictly above.  This is what makes hull vertices
survive a second run of the algorithm. -/
theorem wedge_strict {a v b x q : Vec2 α} (hav : lexLE a v) (hvb : lexLE v b)
    (hconv : 0 < crossProduct a v b)
    (hx1 : 0 ≤ crossProduct a v x) (hx2 : 0 ≤ crossProduct v b x)
    (hq1 : 0 ≤ crossProduct a v q) (hq2 : 0 ≤ crossProduct v b q)
    (hxv : lexLT x v) (hvq : lexLT v q) : 0 < crossProduct x v q := by
  have hAB : crossProduct a v b =
      (v.x - a.x) * (b.y - v.y) - (v.y - a.y) * (b.x - v.x) := by
    unfold crossProduct
    ring
  have hAP : crossProduct a v x =
      (v.x - a.x) * (x.y - v.y) - (v.y - a.y) * (x.x - v.x) := by
    unfold crossProduct
    ring
  have hAQ : crossProduct a v q =
      (v.x - a.x) * (q.y - v.y) - (v.y - a.y) * (q.x - v.x) := by
    unfold crossProduct
    ring
  have hG : crossProduct x v q =
      (q.x - v.x) * (x.y - v.y) - (q.y - v.y) * (x.x - v.x) := by
    unfold crossProduct
    ring
  rw [hAB] at hconv
  rw [hAP] at hx1
  rw [hAQ] at hq1
  rw [hG]
  have hx2' : 0 ≤ (b.x - v.x) * (x.y - v.y) - (b.y - v.y) * (x.x - v.x) := hx2
  have hq2' : 0 ≤ (b.x - v.x) * (q.y - v.y) - (b.y - v.y) * (q.x - v.x) := hq2
  have hP : x.x - v.x < 0 ∨ (x.x - v.x = 0 ∧ x.y - v.y < 0) := by
    rcases lexLT_sub hxv with h | ⟨e, h⟩
    · exact Or.inl (by linarith)
    · exact Or.inr ⟨by linarith, by linarith⟩
  have hQ : 0 < q.x - v.x ∨ (q.x - v.x = 0 ∧ 0 < q.y - v.y) := lexLT_sub hvq
  exact wedge_core (lexLE_sub hav) (lexLE_sub hvb) hconv hx1 hx2' hq1 hq2' hP hQ

/-! ### Stack predicates for the monotone-chain loop -/

/-- Every adjacent stack pair (top `b` above `a`) keeps `p` weakly on the
left of the directed edge `a → b`. -/
def StackCovers (p : Vec2 α) : List (Vec2 α) → Prop
  | b :: a :: rest => 0 ≤ crossProduct a b p ∧ StackCovers p (a :: rest)
  | _ => True

/-- Every adjacent stack triple is a strict left turn read downwards. -/
def StackConvex : List (Vec2 α) → Prop
  | c :: b :: a :: rest => 0 < crossProduct a b c ∧ StackConvex (b :: a :: rest)
  | _ => True

theorem StackCovers_nil (p : Vec2 α) : StackCovers p [] := trivial

theorem StackCovers_single (p x : Vec2 α) : StackCovers p [x] := trivial

theorem StackCovers_cons₂ (p b a : Vec2 α) (rest : List (Vec2 α)) :
    StackCovers p (b :: a :: rest) ↔
      0 ≤ crossProduct a b p ∧ StackCovers p (a :: rest) := Iff.rfl

theorem StackConvex_cons₃ (c b a : Vec2 α) (rest : List (Vec2 α)) :
    StackConvex (c :: b :: a :: rest) ↔
      0 < crossProduct a b c ∧ StackConvex (b :: a :: rest) := Iff.rfl

theorem StackCovers_tail {p : Vec2 α} {c : Vec2 α} {l : List (Vec2 α)}
    (h : StackCovers p (c :: l)) : StackCovers p l := by
  cases l with
  | nil => trivial
  | cons a rest =>
    cases rest with
    | nil => trivial
    | cons a2 rest2 => exact h.2

theorem StackConvex_tail {c : Vec2 α} {l : List (Vec2 α)}
    (h : StackConvex (c :: l)) : StackConvex l := by
  cases l with
  | nil => trivial
  | cons b rest =>
    cases rest with
    | nil => trivial
    | cons a rest2 => exact h.2

theorem StackCovers_append {p : Vec2 α} {t s : List (Vec2 α)}
    (h : StackCovers p (t ++ s)) : StackCovers p s := by
  induction t with
  | nil => exact h
  | cons c t' ih => exact ih (StackCovers_tail h)

theorem StackConvex_append {t s : List (Vec2 α)} (h : StackConvex (t ++ s)) :
    StackConvex s := by
  induction t with
  | nil => exact h
  | cons c t' ih => exact ih (StackConvex_tail h)

theorem StackCovers_suffix {p : Vec2 α} {s st : List (Vec2 α)}
    (h : StackCovers p st) (hs : s <:+ st) : StackCovers p s := by
  obtain ⟨t, rfl⟩ := hs
  exact StackCovers_append h

theorem StackConvex_suffix {s st : List (Vec2 α)} (h : StackConvex st)
    (hs : s <:+ st) : StackConvex s := by
  obtain ⟨t, rfl⟩ := hs
  exact StackConvex_append h

theorem chain'_suffix {R : Vec2 α → Vec2 α → Prop} {s st : List (Vec2 α)}
    (h : List.Chain' R st) (hs : s <:+ st) : List.Chain' R s := by
  obtain ⟨t, rfl⟩ := hs
  exact (List.chain'_append.mp h).2.1

/-! ### Structural lemmas about `popWhile` -/

theorem popWhile_nil (q : Vec2 α) : popWhile q [] = [] := rfl

theorem popWhile_single (q b : Vec2 α) : popWhile q [b] = [b] := rfl

theorem popWhile_cons₂ (q b a : Vec2 α) (t : List (Vec2 α)) :
    popWhile q (b :: a :: t) =
      if crossProduct a b q ≤ 0 then popWhile q (a :: t) else b :: a :: t := rfl

theorem popWhile_suffix (q : Vec2 α) : ∀ st : List (Vec2 α), popWhile q st <:+ st
  | [] => List.suffix_refl []
  | [b] => List.suffix_refl [b]
  | b :: a :: t => by
    rw [popWhile_cons₂]
    split
    · exact (popWhile_suffix q (a :: t)).trans (List.suffix_cons b (a :: t))
    · exact List.suffix_refl _

theorem popWhile_ne_nil (q : Vec2 α) :
    ∀ st : List (Vec2 α), st ≠ [] → popWhile q st ≠ []
  | [], h => absurd rfl h
  | [b], _ => by simp [popWhile_single]
  | b :: a :: t, _ => by
    rw [popWhile_cons₂]
    split
    · exact popWhile_ne_nil q (a :: t) (by simp)
    · simp

theorem popWhile_getLast? (q : Vec2 α) :
    ∀ st : List (Vec2 α), st ≠ [] → (popWhile q st).getLast? = st.getLast?
  | [], h => absurd rfl h
  | [b], _ => rfl
  | b :: a :: t, _ => by
    rw [popWhile_cons₂]
    split
    · rw [popWhile_getLast? q (a :: t) (by simp), List.getLast?_cons_cons]
    · rfl

theorem popWhile_shape (q : Vec2 α) :
    ∀ st : List (Vec2 α), popWhile q st = [] ∨ (∃ x, popWhile q st = [x]) ∨
      ∃ b a t, popWhile q st = b :: a :: t ∧ 0 < crossProduct a b q
  | [] => Or.inl rfl
  | [b] => Or.inr (Or.inl ⟨b, rfl⟩)
  | b :: a :: t => by
    rw [popWhile_cons₂]
    split
    · exact popWhile_shape q (a :: t)
    · next h => exact Or.inr (Or.inr ⟨b, a, t, rfl, lt_of_not_le h⟩)

/-! ### Helpers about sorted lists -/

theorem mem_of_getLast? {l : List (Vec2 α)} {m : Vec2 α} (h : l.getLast? = some m) :
    m ∈ l := by
  induction l with
  | nil => simp at h
  | cons a t ih =>
    cases t with
    | nil => simp_all
    | cons b t' =>
      rw [List.getLast?_cons_cons] at h
      exact List.mem_cons_of_mem a (ih h)

theorem mem_of_head? {l : List (Vec2 α)} {m : Vec2 α} (h : l.head? = some m) :
    m ∈ l := by
  cases l with
  | nil => simp at h
  | cons a t =>
    rw [List.head?_cons, Option.some_inj] at h
    exact h ▸ List.mem_cons_self a t

theorem sorted_head_le {l : List (Vec2 α)} {m : Vec2 α}
    (hl : List.Pairwise lexLE l) (hm : l.head? = some m) : ∀ p ∈ l, lexLE m p := by
  cases l with
  | nil => simp
  | cons a t =>
    rw [List.head?_cons, Option.some_inj] at hm
    subst hm
    intro p hp
    rcases List.mem_cons.mp hp with rfl | hp
    · exact lexLE_refl p
    · exact (List.pairwise_cons.mp hl).1 p hp

theorem sorted_le_getLast {l : List (Vec2 α)} {m : Vec2 α}
    (hl : List.Pairwise lexLE l) (hm : l.getLast? = some m) : ∀ p ∈ l, lexLE p m := by
  induction l with
  | nil => simp
  | cons a t ih =>
    intro p hp
    cases t with
    | nil =>
      simp only [List.getLast?_singleton, Option.some_inj] at hm
      rcases List.mem_singleton.mp hp with rfl
      exact hm ▸ lexLE_refl p
    | cons b t' =>
      rw [List.getLast?_cons_cons] at hm
      rcases List.mem_cons.mp hp with rfl | hp
      · exact (List.pairwise_cons.mp hl).1 m (mem_of_getLast? hm)
      · exact ih (List.pairwise_cons.mp hl).2 hm p hp

theorem all_eq_of_ends {l : List (Vec2 α)} {m : Vec2 α}
    (hl : List.Pairwise lexLE l) (hh : l.head? = some m) (hg : l.getLast? = some m) :
    ∀ p ∈ l, p = m :=
  fun p hp => lexLE_antisymm (sorted_le_getLast hl hg p hp) (sorted_head_le hl hh p hp)

/-- An adjacent duplicate forces the whole stack to be exactly that pair:
any element above or below the pair would give a zero convex triple. -/
theorem stackConvex_adj_dup : ∀ {st : List (Vec2 α)} {x : Vec2 α} {tl : List (Vec2 α)},
    StackConvex st → x :: x :: tl <:+ st → st = [x, x]
  | [], x, tl, _, hs => by
    have := List.eq_nil_of_suffix_nil hs
    simp at this
  | c :: rest, x, tl, hconv, hs => by
    rcases List.suffix_cons_iff.mp hs with heq | hs'
    · -- the duplicate pair starts at the head
      have hc : c = x := by injection heq with h1 _; exact h1.symm
      have hrest : rest = x :: tl := by injection heq with _ h2; exact h2.symm
      subst hc
      subst hrest
      cases tl with
      | nil => rfl
      | cons z t' =>
        exfalso
        have h0 : 0 < crossProduct z c c := ((StackConvex_cons₃ c c z t').mp hconv).1
        rw [cross_obb] at h0
        exact lt_irrefl 0 h0
    · -- the duplicate pair sits inside the tail
      exfalso
      have hrest : rest = [x, x] :=
        stackConvex_adj_dup (StackConvex_tail hconv) hs'
      subst hrest
      have h0 : 0 < crossProduct x x c := ((StackConvex_cons₃ c x x []).mp hconv).1
      rw [cross_oob] at h0
      exact lt_irrefl 0 h0

/-! ### The chain-pass invariant -/

/-- Invariant of one chain-building pass of `getConvexHull`: `processed` is
the portion of the sorted input consumed so far and `st` the stack
(head = top of the JS array). -/
structure ChainInv (processed st : List (Vec2 α)) : Prop where
  subset : ∀ x ∈ st, x ∈ processed
  desc : List.Chain' (fun b a => lexLE a b) st
  convex : StackConvex st
  covers : ∀ p ∈ processed, StackCovers p st
  top : st.head? = processed.getLast?
  bottom : st.getLast? = processed.head?
  size2 : 2 ≤ processed.length → 2 ≤ st.length

/-- After the pops stop, the entire remaining stack keeps the query point
weakly to the left of every stack edge (by downward propagation of the
strict stop test, `cover_prop`). -/
theorem covers_self_of_stop {q : Vec2 α} :
    ∀ R : List (Vec2 α), StackConvex R →
      List.Chain' (fun b a => lexLE a b) R → (∀ x ∈ R, lexLE x q) →
      (∀ b a t, R = b :: a :: t → 0 < crossProduct a b q) → StackCovers q R
  | [], _, _, _, _ => trivial
  | [x], _, _, _, _ => trivial
  | b :: a :: t, hconv, hdesc, hle, hstop => by
    refine (StackCovers_cons₂ q b a t).mpr ⟨(hstop b a t rfl).le, ?_⟩
    refine covers_self_of_stop (a :: t) (StackConvex_tail hconv)
      (List.chain'_cons.mp hdesc).2 (fun x hx => hle x (List.mem_cons_of_mem b hx)) ?_
    intro a' c t' heq
    injection heq with e1 e2
    subst e1
    subst e2
    have h1 : lexLE c a := (List.chain'_cons.mp (List.chain'_cons.mp hdesc).2).1
    have h2 : lexLE a b := (List.chain'_cons.mp hdesc).1
    have h3 : lexLE b q := hle b (List.mem_cons_self _ _)
    have hcv : 0 < crossProduct c a b :=
      ((StackConvex_cons₃ b a c t').mp hconv).1
    exact cover_prop h1 h2 h3 hcv (hstop b a (c :: t') rfl)

/-- Core coverage lemma: starting from a stack `st₀` satisfying the
invariant and popping with query `q`, the edge from the surviving top to
`q` keeps every processed point weakly to its left.  The recursion tracks
the current suffix `st` of `st₀` plus, after at least one pop, the last
popped point and its failed turn test. -/
theorem popWhile_cover {q : Vec2 α} {processed st₀ : List (Vec2 α)}
    (hpair : List.Pairwise lexLE processed)
    (hq : ∀ p ∈ processed, lexLE p q)
    (inv : ChainInv processed st₀) :
    ∀ st : List (Vec2 α), st <:+ st₀ →
      (st = st₀ ∨ ∃ v, (v :: st) <:+ st₀ ∧
        ∀ b, st.head? = some b → crossProduct b v q ≤ 0) →
      ∀ p ∈ processed, ∀ b, (popWhile q st).head? = some b →
        0 ≤ crossProduct b q p
  | [] => by
    intro _ _ p _ b hb
    rw [popWhile_nil] at hb
    simp at hb
  | [x] => by
    intro hsuf hcase p hp b hb
    rw [popWhile_single] at hb
    rw [List.head?_cons, Option.some_inj] at hb
    rw [← hb]
    have hlastx : processed.head? = some x := by
      obtain ⟨t, rfl⟩ := hsuf
      rw [← inv.bottom, List.getLast?_concat]
    rcases hcase with heq | ⟨v, hvs, hpop⟩
    · -- no pop ever happened and the stack is the singleton [x]
      have hhead : processed.getLast? = some x := by
        rw [← inv.top, ← heq, List.head?_cons]
      have hpb : p = x := all_eq_of_ends hpair hlastx hhead p hp
      rw [hpb, cross_oao]
    · have hpopb : crossProduct x v q ≤ 0 := hpop x (by rw [List.head?_cons])
      by_cases hbv : x = v
      · -- adjacent duplicate: the whole stack is [x, x], all points equal
        have hst0 : st₀ = [x, x] := by
          rw [← hbv] at hvs
          exact stackConvex_adj_dup inv.convex hvs
        have hhead : processed.getLast? = some x := by
          rw [← inv.top, hst0, List.head?_cons]
        have hpb : p = x := all_eq_of_ends hpair hlastx hhead p hp
        rw [hpb, cross_oao]
      · have h12 : lexLE x v := by
          have := chain'_suffix inv.desc hvs
          exact (List.chain'_cons.mp this).1
        have h1p : lexLE x p := sorted_head_le hpair hlastx p hp
        have hbp : 0 ≤ crossProduct x v p :=
          ((StackCovers_cons₂ p v x []).mp
            (StackCovers_suffix (inv.covers p hp) hvs)).1
        exact bottom_edge_cover h12 hbv h1p (hq p hp) hpopb hbp
  | b0 :: a :: t => by
    intro hsuf hcase p hp b hb
    rw [popWhile_cons₂] at hb
    by_cases hc : crossProduct a b0 q ≤ 0
    · rw [if_pos hc] at hb
      refine popWhile_cover hpair hq inv (a :: t)
        ((List.suffix_cons b0 (a :: t)).trans hsuf) (Or.inr ⟨b0, hsuf, ?_⟩) p hp b hb
      intro b' hb'
      rw [List.head?_cons, Option.some_inj] at hb'
      subst hb'
      exact hc
    · rw [if_neg hc] at hb
      rw [List.head?_cons, Option.some_inj] at hb
      rw [← hb]
      have hstop : 0 < crossProduct a b0 q := lt_of_not_le hc
      rcases hcase with heq | ⟨v, hvs, hpop⟩
      · -- the very first turn test already succeeded: no pops at all
        have hst : lexLE a b0 := by
          have := chain'_suffix inv.desc hsuf
          exact (List.chain'_cons.mp this).1
        have htq : lexLE b0 q :=
          hq b0 (inv.subset b0 (hsuf.subset (List.mem_cons_self _ _)))
        have hpt : lexLE p b0 := by
          have hh : processed.getLast? = some b0 := by
            rw [← inv.top, ← heq, List.head?_cons]
          exact sorted_le_getLast hpair hh p hp
        have hpcov : 0 ≤ crossProduct a b0 p :=
          ((StackCovers_cons₂ p b0 a t).mp
            (StackCovers_suffix (inv.covers p hp) hsuf)).1
        exact top_edge_cover hst htq hpt hstop hpcov
      · -- pops happened; `v` is the point popped last
        have hconv : 0 < crossProduct a b0 v :=
          ((StackConvex_cons₃ v b0 a t).mp (StackConvex_suffix inv.convex hvs)).1
        have hpop' : crossProduct b0 v q ≤ 0 := hpop b0 (by rw [List.head?_cons])
        have hp1 : 0 ≤ crossProduct a b0 p :=
          ((StackCovers_cons₂ p b0 a t).mp
            (StackCovers_suffix (inv.covers p hp) hsuf)).1
        have hp2 : 0 ≤ crossProduct b0 v p :=
          ((StackCovers_cons₂ p v b0 (a :: t)).mp
            (StackCovers_suffix (inv.covers p hp) hvs)).1
        exact popped_edge_cover hconv hstop hpop' hp1 hp2

/-- One `chainStep` (pop loop then push) preserves the chain invariant. -/
theorem chainStep_inv {processed st : List (Vec2 α)} {q : Vec2 α}
    (hpair : List.Pairwise lexLE (processed ++ [q]))
    (inv : ChainInv processed st) :
    ChainInv (processed ++ [q]) (chainStep q st) := by
  have hpairP : List.Pairwise lexLE processed :=
    hpair.sublist (List.sublist_append_left _ _)
  have hq : ∀ p ∈ processed, lexLE p q := by
    intro p hp
    exact (List.pairwise_append.mp hpair).2.2 p hp q (List.mem_singleton.mpr rfl)
  show ChainInv (processed ++ [q]) (q :: popWhile q st)
  refine ⟨?_, ?_, ?_, ?_, ?_, ?_, ?_⟩
  · -- subset
    intro x hx
    rcases List.mem_cons.mp hx with rfl | hx'
    · exact List.mem_append_right _ (List.mem_singleton.mpr rfl)
    · exact List.mem_append_left _
        (inv.subset x ((popWhile_suffix q st).subset hx'))
  · -- descending stack
    refine List.chain'_cons'.mpr ⟨?_, chain'_suffix inv.desc (popWhile_suffix q st)⟩
    intro b hb
    exact hq b (inv.subset b ((popWhile_suffix q st).subset (mem_of_head? hb)))
  · -- strict convexity
    rcases popWhile_shape q st with h | ⟨x, h⟩ | ⟨b, a, t, h, hstop⟩ <;> rw [h]
    · trivial
    · trivial
    · exact (StackConvex_cons₃ q b a t).mpr
        ⟨hstop, StackConvex_suffix inv.convex (h ▸ popWhile_suffix q st)⟩
  · -- coverage
    intro p hp
    rcases List.mem_append.mp hp with hp' | hp'
    · cases hR : popWhile q st with
      | nil => trivial
      | cons hd tl =>
        refine (StackCovers_cons₂ p q hd tl).mpr ⟨?_, ?_⟩
        · exact popWhile_cover hpairP hq inv st (List.suffix_refl st)
            (Or.inl rfl) p hp' hd (by rw [hR, List.head?_cons])
        · exact StackCovers_suffix (inv.covers p hp') (hR ▸ popWhile_suffix q st)
    · rcases List.mem_singleton.mp hp' with rfl
      cases hR : popWhile p st with
      | nil => trivial
      | cons hd tl =>
        refine (StackCovers_cons₂ p p hd tl).mpr ⟨(cross_obb hd p).ge, ?_⟩
        rw [← hR]
        refine covers_self_of_stop (popWhile p st)
          (StackConvex_suffix inv.convex (popWhile_suffix p st))
          (chain'_suffix inv.desc (popWhile_suffix p st))
          (fun x hx => hq x (inv.subset x ((popWhile_suffix p st).subset hx))) ?_
        intro b a t hbat
        rcases popWhile_shape p st with h | ⟨x, h⟩ | ⟨b', a', t', h, hstop⟩ <;>
          rw [h] at hbat
        · exact absurd hbat (by simp)
        · exact absurd hbat (by simp)
        · injection hbat with e1 e2
          injection e2 with e2 _
          subst e1
          subst e2
          exact hstop
  · -- top
    rw [List.getLast?_concat]
    rfl
  · -- bottom
    cases hP : processed with
    | nil =>
      have hst : st.getLast? = none := by rw [inv.bottom, hP]; rfl
      have : st = [] := List.getLast?_eq_none_iff.mp hst
      subst this
      rfl
    | cons p₀ tl =>
      have hst : st.getLast? = some p₀ := by rw [inv.bottom, hP]; rfl
      have hstne : st ≠ [] := by
        intro h
        rw [h] at hst
        simp at hst
      have hRne : popWhile q st ≠ [] := popWhile_ne_nil q st hstne
      have : (q :: popWhile q st).getLast? = (popWhile q st).getLast? := by
        cases hR : popWhile q st with
        | nil => exact absurd hR hRne
        | cons hd tl2 =>
          show ([q] ++ hd :: tl2).getLast? = (hd :: tl2).getLast?
          rw [List.getLast?_append]
          cases h2 : (hd :: tl2).getLast? with
          | none => exact absurd (List.getLast?_eq_none_iff.mp h2) (by simp)
          | some m => rfl
      show (q :: popWhile q st).getLast? = _
      rw [this, popWhile_getLast? q st hstne, hst]
      rfl
  · -- size2
    intro h2
    cases hP : processed with
    | nil =>
      rw [hP] at h2
      simp at h2
    | cons p₀ tl =>
      have hst : st.getLast? = some p₀ := by rw [inv.bottom, hP]; rfl
      have hstne : st ≠ [] := by
        intro h
        rw [h] at hst
        simp at hst
      have hRne : popWhile q st ≠ [] := popWhile_ne_nil q st hstne
      show 2 ≤ (q :: popWhile q st).length
      cases hR : popWhile q st with
      | nil => exact absurd hR hRne
      | cons hd tl2 => simp [List.length_cons]

theorem chainInv_nil : ChainInv ([] : List (Vec2 α)) [] := by
  refine ⟨?_, ?_, ?_, ?_, ?_, ?_, ?_⟩
  · intro x hx
    simp at hx
  · exact List.chain'_nil
  · trivial
  · intro p hp
    simp at hp
  · rfl
  · rfl
  · intro h
    simp at h

/-- Folding `chainStep` over the remaining input preserves the invariant. -/
theorem buildChain_inv_go :
    ∀ (rest processed st : List (Vec2 α)),
      List.Pairwise lexLE (processed ++ rest) → ChainInv processed st →
      ChainInv (processed ++ rest) (rest.foldl (fun s q => chainStep q s) st)
  | [], processed, st, _, inv => by simpa using inv
  | q :: rest', processed, st, hpair, inv => by
    have h1 : List.Pairwise lexLE ((processed ++ [q]) ++ rest') := by
      rw [List.append_assoc]
      simpa using hpair
    have h2 : List.Pairwise lexLE (processed ++ [q]) :=
      h1.sublist (List.sublist_append_left _ _)
    have h3 := buildChain_inv_go rest' (processed ++ [q]) (chainStep q st) h1
      (chainStep_inv h2 inv)
    rw [List.append_assoc] at h3
    simpa using h3

/-- The invariant at the end of a full pass over a sorted list. -/
theorem chainInv_sorted (S : List (Vec2 α)) (hS : List.Pairwise lexLE S) :
    ChainInv S (buildChain S) := by
  have h := buildChain_inv_go S [] [] (by simpa using hS) chainInv_nil
  simpa [buildChain] using h

instance : IsTotal (Vec2 α) lexLE := ⟨lexLE_total⟩

instance : IsTrans (Vec2 α) lexLE := ⟨fun _ _ _ => lexLE_trans⟩

instance : IsRefl (Vec2 α) lexLE := ⟨lexLE_refl⟩

theorem sortPoints_sorted (pts : List (Vec2 α)) :
    List.Pairwise lexLE (sortPoints pts) :=
  List.sorted_insertionSort lexLE pts

theorem sortPoints_perm (pts : List (Vec2 α)) :
    List.Perm (sortPoints pts) pts :=
  List.perm_insertionSort lexLE pts

theorem mem_sortPoints {pts : List (Vec2 α)} {x : Vec2 α} :
    x ∈ sortPoints pts ↔ x ∈ pts :=
  (sortPoints_perm pts).mem_iff

theorem sortPoints_length (pts : List (Vec2 α)) :
    (sortPoints pts).length = pts.length :=
  (sortPoints_perm pts).length_eq

/-! ### Essential points survive the pop loop -/

/-- A point `v` is lower-essential for a point set when every lex-strictly
smaller `x` and lex-strictly larger `q` in the set see a strict left turn
`x → v → q`.  Such points can never be popped from the lower chain. -/
def EssentialL (pts : List (Vec2 α)) (v : Vec2 α) : Prop :=
  ∀ x q, x ∈ pts → q ∈ pts → lexLT x v → lexLT v q → 0 < crossProduct x v q

/-- Mirror-image essentiality, for the upper chain. -/
def EssentialU (pts : List (Vec2 α)) (v : Vec2 α) : Prop :=
  ∀ x q, x ∈ pts → q ∈ pts → lexLT v x → lexLT q v → 0 < crossProduct x v q

/-- An essential stack member survives the pop loop (or coincides with the
query point, which gets pushed back anyway). -/
theorem popWhile_mem_essential {S : List (Vec2 α)} {q v : Vec2 α}
    (hqS : q ∈ S) (hess : EssentialL S v) :
    ∀ st : List (Vec2 α), List.Chain' (fun b a => lexLE a b) st →
      (∀ x ∈ st, x ∈ S) → (∀ x ∈ st, lexLE x q) → v ∈ st →
      v ∈ popWhile q st ∨ v = q
  | [], _, _, _, hv => absurd hv (by simp)
  | [b], _, _, _, hv => Or.inl (by rwa [popWhile_single])
  | b :: a :: t, hdesc, hsub, hle, hv => by
    rw [popWhile_cons₂]
    by_cases hc : crossProduct a b q ≤ 0
    · rw [if_pos hc]
      rcases List.mem_cons.mp hv with rfl | hv'
      · -- the popped point is v itself: show the pop is impossible unless
        -- a = v or v = q
        by_cases hav : a = v
        · exact popWhile_mem_essential hqS hess (a :: t)
            (List.chain'_cons.mp hdesc).2
            (fun x hx => hsub x (List.mem_cons_of_mem v hx))
            (fun x hx => hle x (List.mem_cons_of_mem v hx))
            (hav ▸ List.mem_cons_self a t)
        · by_cases hvq : v = q
          · exact Or.inr hvq
          · exfalso
            have hale : lexLE a v := (List.chain'_cons.mp hdesc).1
            have hav' : lexLT a v := lexLT_of_le_ne hale hav
            have hvq' : lexLT v q :=
              lexLT_of_le_ne (hle v (List.mem_cons_self v _)) hvq
            have := hess a q (hsub a (List.mem_cons_of_mem v (List.mem_cons_self a t)))
              hqS hav' hvq'
            exact absurd hc (not_le.mpr this)
      · exact popWhile_mem_essential hqS hess (a :: t)
          (List.chain'_cons.mp hdesc).2
          (fun x hx => hsub x (List.mem_cons_of_mem b hx))
          (fun x hx => hle x (List.mem_cons_of_mem b hx)) hv'
    · rw [if_neg hc]
      exact Or.inl hv

/-- An essential point of a sorted list ends up in the chain stack. -/
theorem essential_mem_buildChain {S : List (Vec2 α)} {v : Vec2 α}
    (hS : List.Pairwise lexLE S) (hv : v ∈ S) (hess : EssentialL S v) :
    v ∈ buildChain S := by
  suffices h : ∀ (rest processed st : List (Vec2 α)),
      processed ++ rest = S → ChainInv processed st → (v ∈ processed → v ∈ st) →
      v ∈ processed ++ rest →
      v ∈ rest.foldl (fun s q => chainStep q s) st by
    have := h S [] [] rfl chainInv_nil (by simp) (by simpa using hv)
    simpa [buildChain] using this
  intro rest
  induction rest with
  | nil =>
    intro processed st hPS inv hmem hv'
    rw [List.append_nil] at hPS hv'
    exact hmem hv'
  | cons q rest' ih =>
    intro processed st hPS inv hmem hv'
    have hpairFull : List.Pairwise lexLE (processed ++ q :: rest') := hPS ▸ hS
    have h2 : List.Pairwise lexLE (processed ++ [q]) := by
      refine hpairFull.sublist ?_
      refine List.Sublist.append_left ?_ processed
      exact (List.nil_sublist rest').cons₂ q
    have hq : ∀ p ∈ processed, lexLE p q :=
      fun p hp => (List.pairwise_append.mp h2).2.2 p hp q (List.mem_singleton.mpr rfl)
    rw [List.foldl_cons]
    have hPS' : (processed ++ [q]) ++ rest' = S := by
      rw [List.append_assoc]
      simpa using hPS
    refine ih (processed ++ [q]) (chainStep q st) hPS' (chainStep_inv h2 inv) ?_ ?_
    · -- membership is preserved by one chainStep
      intro hvm
      rcases List.mem_append.mp hvm with hvp | hvq
      · have hv_st : v ∈ st := hmem hvp
        have hqS : q ∈ S := by
          rw [← hPS]
          exact List.mem_append_right _ (List.mem_cons_self q rest')
        rcases popWhile_mem_essential hqS hess st inv.desc
            (fun x hx => by
              rw [← hPS]
              exact List.mem_append_left _ (inv.subset x hx))
            (fun x hx => hq x (inv.subset x hx)) hv_st with h | h
        · exact List.mem_cons_of_mem q h
        · exact h ▸ List.mem_cons_self q _
      · rcases List.mem_singleton.mp hvq with rfl
        exact List.mem_cons_self v _
    · rw [List.append_assoc]
      simpa using hv'

/-- Any member of a list is its head, its last element, or sits between two
neighbours. -/
theorem mem_decomp : ∀ {l : List (Vec2 α)} {v : Vec2 α}, v ∈ l →
    l.head? = some v ∨ l.getLast? = some v ∨
      ∃ ab bl t, ab :: v :: bl :: t <:+ l
  | [], v, hv => absurd hv (by simp)
  | c :: rest, v, hv => by
    rcases List.mem_cons.mp hv with rfl | hv'
    · exact Or.inl (by rw [List.head?_cons])
    · rcases mem_decomp hv' with hh | hg | ⟨ab, bl, t, hs⟩
      · cases rest with
        | nil => simp at hv'
        | cons b t2 =>
          rw [List.head?_cons, Option.some_inj] at hh
          subst hh
          cases t2 with
          | nil => exact Or.inr (Or.inl (by rw [List.getLast?_cons_cons]; rfl))
          | cons d t3 =>
            exact Or.inr (Or.inr ⟨c, d, t3, List.suffix_refl _⟩)
      · cases rest with
        | nil => simp at hv'
        | cons b t2 =>
          exact Or.inr (Or.inl (by rw [List.getLast?_cons_cons]; exact hg))
      · exact Or.inr (Or.inr ⟨ab, bl, t, hs.trans (List.suffix_cons c rest)⟩)

/-- A stack vertex with neighbours on both sides is lower-essential for the
processed set: the wedge of its two incident edges pins every other point. -/
theorem interior_essential {S stack : List (Vec2 α)} (inv : ChainInv S stack)
    {ab v bl : Vec2 α} {t : List (Vec2 α)} (hsuf : ab :: v :: bl :: t <:+ stack) :
    EssentialL S v := by
  intro x q hx hq hxv hvq
  have hdesc := chain'_suffix inv.desc hsuf
  have hblv : lexLE bl v := (List.chain'_cons.mp (List.chain'_cons.mp hdesc).2).1
  have hvab : lexLE v ab := (List.chain'_cons.mp hdesc).1
  have hconv : 0 < crossProduct bl v ab :=
    ((StackConvex_cons₃ ab v bl t).mp (StackConvex_suffix inv.convex hsuf)).1
  have hcovx := StackCovers_suffix (inv.covers x hx) hsuf
  have hcovq := StackCovers_suffix (inv.covers q hq) hsuf
  have hx2 : 0 ≤ crossProduct v ab x :=
    ((StackCovers_cons₂ x ab v (bl :: t)).mp hcovx).1
  have hx1 : 0 ≤ crossProduct bl v x :=
    ((StackCovers_cons₂ x v bl t).mp (StackCovers_tail hcovx)).1
  have hq2 : 0 ≤ crossProduct v ab q :=
    ((StackCovers_cons₂ q ab v (bl :: t)).mp hcovq).1
  have hq1 : 0 ≤ crossProduct bl v q :=
    ((StackCovers_cons₂ q v bl t).mp (StackCovers_tail hcovq)).1
  exact wedge_strict hblv hvab hconv hx1 hx2 hq1 hq2 hxv hvq

/-! ### Transport along point negation (for the upper chain) -/

/-- Pointwise negation; conjugating by it swaps the two chains. -/
def negPt (v : Vec2 α) : Vec2 α := ⟨-v.x, -v.y⟩

theorem negPt_x (v : Vec2 α) : (negPt v).x = -v.x := rfl

theorem negPt_y (v : Vec2 α) : (negPt v).y = -v.y := rfl

theorem negPt_negPt (v : Vec2 α) : negPt (negPt v) = v :=
  Vec2.ext_xy (neg_neg _) (neg_neg _)

theorem negPt_inj {a b : Vec2 α} (h : negPt a = negPt b) : a = b := by
  rw [← negPt_negPt a, h, negPt_negPt]

theorem map_negPt_negPt (l : List (Vec2 α)) : (l.map negPt).map negPt = l := by
  induction l with
  | nil => rfl
  | cons a t ih => simp only [List.map_cons, negPt_negPt, ih]

theorem crossProduct_negPt (o a b : Vec2 α) :
    crossProduct (negPt o) (negPt a) (negPt b) = crossProduct o a b := by
  unfold crossProduct
  rw [negPt_x, negPt_x, negPt_x, negPt_y, negPt_y, negPt_y]
  ring

theorem lexLE_negPt {a b : Vec2 α} : lexLE (negPt a) (negPt b) ↔ lexLE b a := by
  unfold lexLE
  rw [negPt_x, negPt_x, negPt_y, negPt_y]
  constructor
  · rintro (h | ⟨e, h⟩)
    · exact Or.inl (by linarith)
    · exact Or.inr ⟨by linarith, by linarith⟩
  · rintro (h | ⟨e, h⟩)
    · exact Or.inl (by linarith)
    · exact Or.inr ⟨by linarith, by linarith⟩

theorem lexLT_negPt {a b : Vec2 α} : lexLT (negPt a) (negPt b) ↔ lexLT b a := by
  unfold lexLT
  rw [negPt_x, negPt_x, negPt_y, negPt_y]
  constructor
  · rintro (h | ⟨e, h⟩)
    · exact Or.inl (by linarith)
    · exact Or.inr ⟨by linarith, by linarith⟩
  · rintro (h | ⟨e, h⟩)
    · exact Or.inl (by linarith)
    · exact Or.inr ⟨by linarith, by linarith⟩

theorem popWhile_map_negPt (q : Vec2 α) :
    ∀ st : List (Vec2 α),
      popWhile (negPt q) (st.map negPt) = (popWhile q st).map negPt
  | [] => rfl
  | [b] => rfl
  | b :: a :: t => by
    show popWhile (negPt q) (negPt b :: negPt a :: t.map negPt) = _
    rw [popWhile_cons₂, popWhile_cons₂, crossProduct_negPt]
    by_cases h : crossProduct a b q ≤ 0
    · rw [if_pos h, if_pos h]
      exact popWhile_map_negPt q (a :: t)
    · rw [if_neg h, if_neg h]
      rfl

theorem foldl_chainStep_map_negPt :
    ∀ (l st : List (Vec2 α)),
      (l.map negPt).foldl (fun s q => chainStep q s) (st.map negPt) =
        (l.foldl (fun s q => chainStep q s) st).map negPt
  | [], _ => rfl
  | q :: l', st => by
    show (l'.map negPt).foldl _ (chainStep (negPt q) (st.map negPt)) = _
    have hstep : chainStep (negPt q) (st.map negPt) = (chainStep q st).map negPt := by
      unfold chainStep
      rw [popWhile_map_negPt]
      rfl
    rw [hstep, List.foldl_cons]
    exact foldl_chainStep_map_negPt l' (chainStep q st)

theorem buildChain_map_negPt (l : List (Vec2 α)) :
    buildChain (l.map negPt) = (buildChain l).map negPt := by
  unfold buildChain
  have h := foldl_chainStep_map_negPt l []
  simpa using h

theorem StackCovers_map_negPt {p : Vec2 α} :
    ∀ st : List (Vec2 α), StackCovers p st → StackCovers (negPt p) (st.map negPt)
  | [], _ => trivial
  | [_], _ => trivial
  | b :: a :: t, h => by
    show StackCovers (negPt p) (negPt b :: negPt a :: t.map negPt)
    refine (StackCovers_cons₂ (negPt p) (negPt b) (negPt a) (t.map negPt)).mpr
      ⟨?_, ?_⟩
    · rw [crossProduct_negPt]
      exact ((StackCovers_cons₂ p b a t).mp h).1
    · exact StackCovers_map_negPt (a :: t) ((StackCovers_cons₂ p b a t).mp h).2

theorem pairwise_rev_negPt {S : List (Vec2 α)} (hS : List.Pairwise lexLE S) :
    List.Pairwise lexLE (S.reverse.map negPt) := by
  rw [List.pairwise_map, List.pairwise_reverse]
  exact hS.imp (fun h => lexLE_negPt.mpr h)

/-- The upper-chain stack is the negated lower-chain stack of the negated
reversed input. -/
theorem upStack_eq (S : List (Vec2 α)) :
    buildChain S.reverse = (buildChain (S.reverse.map negPt)).map negPt := by
  conv_lhs => rw [← map_negPt_negPt S.reverse]
  rw [buildChain_map_negPt]

/-! ### Small list helpers -/

theorem head?_dropLast {l : List (Vec2 α)} (h : 2 ≤ l.length) :
    l.dropLast.head? = l.head? := by
  cases l with
  | nil => simp at h
  | cons a t =>
    cases t with
    | nil => simp at h
    | cons b t' => rfl

theorem mem_dropLast_of_ne : ∀ {l : List (Vec2 α)} {v m : Vec2 α}, v ∈ l →
    l.getLast? = some m → v ≠ m → v ∈ l.dropLast
  | [], v, m, hv, _, _ => absurd hv (by simp)
  | [a], v, m, hv, hm, hne => by
    rcases List.mem_singleton.mp hv with rfl
    simp only [List.getLast?_singleton, Option.some_inj] at hm
    exact absurd hm hne
  | a :: b :: t', v, m, hv, hm, hne => by
    rw [List.getLast?_cons_cons] at hm
    rcases List.mem_cons.mp hv with rfl | hv'
    · show v ∈ v :: (b :: t').dropLast
      exact List.mem_cons_self _ _
    · show v ∈ a :: (b :: t').dropLast
      exact List.mem_cons_of_mem a (mem_dropLast_of_ne hv' hm hne)

theorem dropLast_concat_getLast? : ∀ {l : List (Vec2 α)} {m : Vec2 α},
    l.getLast? = some m → l.dropLast ++ [m] = l
  | [], m, h => by simp at h
  | [a], m, h => by
    simp only [List.getLast?_singleton, Option.some_inj] at h
    rw [h]
    rfl
  | a :: b :: t, m, h => by
    rw [List.getLast?_cons_cons] at h
    show a :: ((b :: t).dropLast ++ [m]) = a :: b :: t
    rw [dropLast_concat_getLast? h]

theorem head?_mem_dropLast {l : List (Vec2 α)} {x : Vec2 α} (h2 : 2 ≤ l.length)
    (hx : l.head? = some x) : x ∈ l.dropLast := by
  rw [← head?_dropLast h2] at hx
  exact mem_of_head? hx

/-! ### Unfolding `getConvexHull` -/

theorem getConvexHull_small {pts : List (Vec2 α)} (h : pts.length ≤ 3) :
    getConvexHull pts = pts := by
  unfold getConvexHull
  rw [if_pos h]

theorem getConvexHull_big {pts : List (Vec2 α)} (h : ¬pts.length ≤ 3) :
    getConvexHull pts =
      (buildChain (sortPoints pts)).reverse.dropLast ++
        (buildChain (sortPoints pts).reverse).reverse.dropLast := by
  simp only [getConvexHull, if_neg h]

/-! ### Polygon containment -/

/-- The directed edge list of a polygon, wrapping around to close it. -/
def cyclicPairs : List (Vec2 α) → List (Vec2 α × Vec2 α)
  | [] => []
  | x :: xs => (x :: xs).zip (xs ++ [x])

/-- Formalisation of the spec's containment wording: a point lies on or
inside the polygon when it is weakly on one fixed side of every directed
edge. -/
def insideOn (poly : List (Vec2 α)) (p : Vec2 α) : Prop :=
  (∀ e ∈ cyclicPairs poly, 0 ≤ crossProduct e.1 e.2 p) ∨
    (∀ e ∈ cyclicPairs poly, crossProduct e.1 e.2 p ≤ 0)

theorem cyclicPairs_one (a : Vec2 α) : cyclicPairs [a] = [(a, a)] := rfl

theorem cyclicPairs_two (a b : Vec2 α) :
    cyclicPairs [a, b] = [(a, b), (b, a)] := rfl

theorem cyclicPairs_three (a b c : Vec2 α) :
    cyclicPairs [a, b, c] = [(a, b), (b, c), (c, a)] := rfl

/-- Membership in a polygon of at most three vertices implies containment. -/
theorem insideOn_small : ∀ {pts : List (Vec2 α)}, pts.length ≤ 3 →
    ∀ p ∈ pts, insideOn pts p := by
  intro pts hlen p hp
  match pts, hp with
  | [a], hp =>
    rcases List.mem_singleton.mp hp with rfl
    left
    intro e he
    rw [cyclicPairs_one] at he
    rcases List.mem_singleton.mp he with rfl
    exact (cross_oob p p).ge
  | [a, b], hp =>
    left
    intro e he
    rw [cyclicPairs_two] at he
    simp only [List.mem_cons, List.not_mem_nil, or_false] at he
    rcases List.mem_cons.mp hp with rfl | hp2
    · rcases he with rfl | rfl
      · exact (cross_oao p b).ge
      · exact (cross_obb b p).ge
    · rcases List.mem_singleton.mp hp2 with rfl
      rcases he with rfl | rfl
      · exact (cross_obb a p).ge
      · exact (cross_oao p a).ge
  | [a, b, c], hp =>
    by_cases hD : 0 ≤ crossProduct a b c
    · left
      intro e he
      rw [cyclicPairs_three] at he
      simp only [List.mem_cons, List.not_mem_nil, or_false] at he
      rcases List.mem_cons.mp hp with rfl | hp2
      · rcases he with rfl | rfl | rfl
        · exact (cross_oao p b).ge
        · rw [← cross_cyclic]
          exact hD
        · exact (cross_obb c p).ge
      · rcases List.mem_cons.mp hp2 with rfl | hp3
        · rcases he with rfl | rfl | rfl
          · exact (cross_obb a p).ge
          · exact (cross_oao p c).ge
          · rw [cross_cyclic]
            exact hD
        · rcases List.mem_singleton.mp hp3 with rfl
          rcases he with rfl | rfl | rfl
          · exact hD
          · exact (cross_obb b p).ge
          · exact (cross_oao p a).ge
    · right
      have hD' : crossProduct a b c ≤ 0 := le_of_not_le hD
      intro e he
      rw [cyclicPairs_three] at he
      simp only [List.mem_cons, List.not_mem_nil, or_false] at he
      rcases List.mem_cons.mp hp with rfl | hp2
      · rcases he with rfl | rfl | rfl
        · exact (cross_oao p b).le
        · rw [← cross_cyclic]
          exact hD'
        · exact (cross_obb c p).le
      · rcases List.mem_cons.mp hp2 with rfl | hp3
        · rcases he with rfl | rfl | rfl
          · exact (cross_obb a p).le
          · exact (cross_oao p c).le
          · rw [cross_cyclic]
            exact hD'
        · rcases List.mem_singleton.mp hp3 with rfl
          rcases he with rfl | rfl | rfl
          · exact hD'
          · exact (cross_obb b p).le
          · exact (cross_oao p a).le

/-- Adjacent pairs of a list in traversal order. -/
def chainPairs (l : List (Vec2 α)) : List (Vec2 α × Vec2 α) := l.zip l.tail

theorem chainPairs_mem_decomp : ∀ {l : List (Vec2 α)} {pr : Vec2 α × Vec2 α},
    pr ∈ chainPairs l → ∃ l₁ l₂, l = l₁ ++ pr.1 :: pr.2 :: l₂
  | [], pr, h => absurd h (by simp [chainPairs])
  | [a], pr, h => absurd h (by simp [chainPairs])
  | a :: b :: t, pr, h => by
    have h1 : pr ∈ (a, b) :: chainPairs (b :: t) := h
    rcases List.mem_cons.mp h1 with rfl | h2
    · exact ⟨[], t, rfl⟩
    · obtain ⟨l₁, l₂, heq⟩ := chainPairs_mem_decomp h2
      refine ⟨a :: l₁, l₂, ?_⟩
      show a :: (b :: t) = a :: (l₁ ++ pr.1 :: pr.2 :: l₂)
      rw [heq]

/-- Stack-edge coverage read off in traversal (reversed) order. -/
theorem covers_chainPairs_reverse {p : Vec2 α} {st : List (Vec2 α)}
    (h : StackCovers p st) :
    ∀ pr ∈ chainPairs st.reverse, 0 ≤ crossProduct pr.1 pr.2 p := by
  intro pr hpr
  obtain ⟨l₁, l₂, heq⟩ := chainPairs_mem_decomp hpr
  have hst : st = l₂.reverse ++ pr.2 :: pr.1 :: l₁.reverse := by
    have h2 := congrArg List.reverse heq
    rw [List.reverse_reverse] at h2
    rw [h2]
    simp [List.reverse_append]
  have hsuf : pr.2 :: pr.1 :: l₁.reverse <:+ st := ⟨l₂.reverse, hst.symm⟩
  exact ((StackCovers_cons₂ p pr.2 pr.1 l₁.reverse).mp (StackCovers_suffix h hsuf)).1

theorem cyclicPairs_append (x y : Vec2 α) (u' v' : List (Vec2 α)) :
    cyclicPairs ((x :: u') ++ (y :: v')) =
      (x :: u').zip (u' ++ [y]) ++ (y :: v').zip (v' ++ [x]) := by
  show ((x :: u') ++ (y :: v')).zip ((u' ++ (y :: v')) ++ [x]) = _
  have hsplit : (u' ++ (y :: v')) ++ [x] = (u' ++ [y]) ++ (v' ++ [x]) := by simp
  rw [hsplit]
  exact List.zip_append (by simp)

theorem zip_block_eq_chainPairs (x y : Vec2 α) (u' : List (Vec2 α)) :
    (x :: u').zip (u' ++ [y]) = chainPairs (x :: (u' ++ [y])) := by
  show _ = (x :: (u' ++ [y])).zip (u' ++ [y])
  have h : ((x :: u') ++ [y]).zip ((u' ++ [y]) ++ ([] : List (Vec2 α))) =
      (x :: u').zip (u' ++ [y]) ++ [y].zip ([] : List (Vec2 α)) :=
    List.zip_append (by simp)
  simpa using h.symm

/-- Containment for inputs of at least four points: every input point is
weakly left of every directed hull edge. -/
theorem hull_covers_big {pts : List (Vec2 α)} (h4 : ¬pts.length ≤ 3) :
    ∀ p ∈ pts, ∀ e ∈ cyclicPairs (getConvexHull pts),
      0 ≤ crossProduct e.1 e.2 p := by
  intro p hp e he
  have hS : List.Pairwise lexLE (sortPoints pts) := sortPoints_sorted pts
  have hpS : p ∈ sortPoints pts := mem_sortPoints.mpr hp
  have hlen : 4 ≤ (sortPoints pts).length := by
    rw [sortPoints_length]
    omega
  have inv₁ := chainInv_sorted (sortPoints pts) hS
  have hS2 : List.Pairwise lexLE ((sortPoints pts).reverse.map negPt) :=
    pairwise_rev_negPt hS
  have inv₂ := chainInv_sorted ((sortPoints pts).reverse.map negPt) hS2
  have hUeq : buildChain (sortPoints pts).reverse =
      (buildChain ((sortPoints pts).reverse.map negPt)).map negPt :=
    upStack_eq (sortPoints pts)
  have hL2 : 2 ≤ (buildChain (sortPoints pts)).length := inv₁.size2 (by omega)
  have hU2 : 2 ≤ (buildChain (sortPoints pts).reverse).length := by
    rw [hUeq, List.length_map]
    refine inv₂.size2 ?_
    rw [List.length_map, List.length_reverse]
    omega
  obtain ⟨mx, hmx⟩ : ∃ v, (sortPoints pts).head? = some v := by
    cases hh : (sortPoints pts).head? with
    | none =>
      rw [List.head?_eq_none_iff] at hh
      rw [hh] at hlen
      simp at hlen
    | some v => exact ⟨v, rfl⟩
  obtain ⟨Mx, hMx⟩ : ∃ v, (sortPoints pts).getLast? = some v := by
    cases hh : (sortPoints pts).getLast? with
    | none =>
      rw [List.getLast?_eq_none_iff] at hh
      rw [hh] at hlen
      simp at hlen
    | some v => exact ⟨v, rfl⟩
  have hlower_last : (buildChain (sortPoints pts)).reverse.getLast? = some Mx := by
    rw [List.getLast?_reverse, inv₁.top, hMx]
  have hlower_head : (buildChain (sortPoints pts)).reverse.head? = some mx := by
    rw [List.head?_reverse, inv₁.bottom, hmx]
  have hupper_head : (buildChain (sortPoints pts).reverse).reverse.head? = some Mx := by
    rw [List.head?_reverse, hUeq, List.getLast?_map, inv₂.bottom, List.head?_map,
      List.head?_reverse, hMx]
    simp [negPt_negPt]
  have hupper_last : (buildChain (sortPoints pts).reverse).reverse.getLast? = some mx := by
    rw [List.getLast?_reverse, hUeq, List.head?_map, inv₂.top, List.getLast?_map,
      List.getLast?_reverse, hmx]
    simp [negPt_negPt]
  have hlowdrop2 : 2 ≤ (buildChain (sortPoints pts)).reverse.length := by
    rw [List.length_reverse]
    exact hL2
  have hupdrop2 : 2 ≤ (buildChain (sortPoints pts).reverse).reverse.length := by
    rw [List.length_reverse]
    exact hU2
  obtain ⟨u', hu'⟩ : ∃ u',
      (buildChain (sortPoints pts)).reverse.dropLast = mx :: u' := by
    have hh : (buildChain (sortPoints pts)).reverse.dropLast.head? = some mx := by
      rw [head?_dropLast hlowdrop2]
      exact hlower_head
    cases hld : (buildChain (sortPoints pts)).reverse.dropLast with
    | nil =>
      rw [hld] at hh
      simp at hh
    | cons z u' =>
      rw [hld, List.head?_cons, Option.some_inj] at hh
      exact ⟨u', by rw [← hh]⟩
  obtain ⟨v', hv'⟩ : ∃ v',
      (buildChain (sortPoints pts).reverse).reverse.dropLast = Mx :: v' := by
    have hh : (buildChain (sortPoints pts).reverse).reverse.dropLast.head? = some Mx := by
      rw [head?_dropLast hupdrop2]
      exact hupper_head
    cases hld : (buildChain (sortPoints pts).reverse).reverse.dropLast with
    | nil =>
      rw [hld] at hh
      simp at hh
    | cons z v' =>
      rw [hld, List.head?_cons, Option.some_inj] at hh
      exact ⟨v', by rw [← hh]⟩
  have e1 : mx :: (u' ++ [Mx]) = (buildChain (sortPoints pts)).reverse := by
    rw [← List.cons_append, ← hu']
    exact dropLast_concat_getLast? hlower_last
  have e2 : Mx :: (v' ++ [mx]) = (buildChain (sortPoints pts).reverse).reverse := by
    rw [← List.cons_append, ← hv']
    exact dropLast_concat_getLast? hupper_last
  have hsplit : cyclicPairs (getConvexHull pts) =
      chainPairs (buildChain (sortPoints pts)).reverse ++
        chainPairs (buildChain (sortPoints pts).reverse).reverse := by
    rw [getConvexHull_big h4, hu', hv', cyclicPairs_append,
      zip_block_eq_chainPairs, zip_block_eq_chainPairs, e1, e2]
  rw [hsplit] at he
  rcases List.mem_append.mp he with hel | heu
  · exact covers_chainPairs_reverse (inv₁.covers p hpS) e hel
  · have hcovU : StackCovers p (buildChain (sortPoints pts).reverse) := by
      have h1 : negPt p ∈ (sortPoints pts).reverse.map negPt :=
        List.mem_map_of_mem negPt (List.mem_reverse.mpr hpS)
      have h3 := StackCovers_map_negPt _ (inv₂.covers (negPt p) h1)
      rw [negPt_negPt, ← hUeq] at h3
      exact h3
    exact covers_chainPairs_reverse hcovU e heu

/-- Containment half of the hull claim, for all inputs. -/
theorem hull_containment (pts : List (Vec2 α)) :
    ∀ p ∈ pts, insideOn (getConvexHull pts) p := by
  intro p hp
  by_cases h3 : pts.length ≤ 3
  · rw [getConvexHull_small h3]
    exact insideOn_small h3 p hp
  · exact Or.inl (fun e he => hull_covers_big h3 p hp e he)

/-! ### Idempotence machinery -/

/-- The hull is made of input points. -/
theorem getConvexHull_subset {pts : List (Vec2 α)} {x : Vec2 α}
    (hx : x ∈ getConvexHull pts) : x ∈ pts := by
  by_cases h3 : pts.length ≤ 3
  · rwa [getConvexHull_small h3] at hx
  · rw [getConvexHull_big h3] at hx
    rcases List.mem_append.mp hx with h | h
    · have h1 : x ∈ buildChain (sortPoints pts) :=
        List.mem_reverse.mp (List.dropLast_subset _ h)
      exact mem_sortPoints.mp
        ((chainInv_sorted _ (sortPoints_sorted pts)).subset x h1)
    · have h1 : x ∈ buildChain (sortPoints pts).reverse :=
        List.mem_reverse.mp (List.dropLast_subset _ h)
      rw [upStack_eq] at h1
      obtain ⟨y, hy, hyx⟩ := List.mem_map.mp h1
      have h2 := (chainInv_sorted _
        (pairwise_rev_negPt (sortPoints_sorted pts))).subset y hy
      obtain ⟨z, hz, hzy⟩ := List.mem_map.mp h2
      rw [← hyx, ← hzy, negPt_negPt]
      exact mem_sortPoints.mp (List.mem_reverse.mp hz)

/-- For at least four input points, the lex-least and lex-greatest points
are hull vertices. -/
theorem hull_extremes_mem {pts : List (Vec2 α)} (h4 : ¬pts.length ≤ 3)
    {mx Mx : Vec2 α} (hmx : (sortPoints pts).head? = some mx)
    (hMx : (sortPoints pts).getLast? = some Mx) :
    mx ∈ getConvexHull pts ∧ Mx ∈ getConvexHull pts := by
  have hS : List.Pairwise lexLE (sortPoints pts) := sortPoints_sorted pts
  have hlen : 4 ≤ (sortPoints pts).length := by
    rw [sortPoints_length]
    omega
  have inv₁ := chainInv_sorted (sortPoints pts) hS
  have hS2 : List.Pairwise lexLE ((sortPoints pts).reverse.map negPt) :=
    pairwise_rev_negPt hS
  have inv₂ := chainInv_sorted ((sortPoints pts).reverse.map negPt) hS2
  have hUeq := upStack_eq (sortPoints pts)
  have hL2 : 2 ≤ (buildChain (sortPoints pts)).length := inv₁.size2 (by omega)
  have hU2 : 2 ≤ (buildChain (sortPoints pts).reverse).length := by
    rw [hUeq, List.length_map]
    refine inv₂.size2 ?_
    rw [List.length_map, List.length_reverse]
    omega
  have hlowdrop2 : 2 ≤ (buildChain (sortPoints pts)).reverse.length := by
    rw [List.length_reverse]
    exact hL2
  have hupdrop2 : 2 ≤ (buildChain (sortPoints pts).reverse).reverse.length := by
    rw [List.length_reverse]
    exact hU2
  have hlower_head : (buildChain (sortPoints pts)).reverse.head? = some mx := by
    rw [List.head?_reverse, inv₁.bottom, hmx]
  have hupper_head :
      (buildChain (sortPoints pts).reverse).reverse.head? = some Mx := by
    rw [List.head?_reverse, hUeq, List.getLast?_map, inv₂.bottom, List.head?_map,
      List.head?_reverse, hMx]
    simp [negPt_negPt]
  constructor
  · rw [getConvexHull_big h4]
    exact List.mem_append_left _ (head?_mem_dropLast hlowdrop2 hlower_head)
  · rw [getConvexHull_big h4]
    exact List.mem_append_right _ (head?_mem_dropLast hupdrop2 hupper_head)

/-- A lower-stack member is the lex-max, the lex-min, or lower-essential. -/
theorem low_mem_cases {pts : List (Vec2 α)} {v mx Mx : Vec2 α}
    (hmx : (sortPoints pts).head? = some mx)
    (hMx : (sortPoints pts).getLast? = some Mx)
    (hv : v ∈ buildChain (sortPoints pts)) :
    v = mx ∨ v = Mx ∨ EssentialL (sortPoints pts) v := by
  have hS := sortPoints_sorted pts
  have inv₁ := chainInv_sorted (sortPoints pts) hS
  rcases mem_decomp hv with h | h | ⟨ab, bl, t, hsuf⟩
  · right
    left
    rw [inv₁.top, hMx, Option.some_inj] at h
    exact h.symm
  · left
    rw [inv₁.bottom, hmx, Option.some_inj] at h
    exact h.symm
  · exact Or.inr (Or.inr (interior_essential inv₁ hsuf))

theorem essentialU_of_negPt {S : List (Vec2 α)} {v : Vec2 α}
    (h : EssentialL (S.reverse.map negPt) (negPt v)) : EssentialU S v := by
  intro x q hx hq hvx hqv
  have hx' : negPt x ∈ S.reverse.map negPt :=
    List.mem_map_of_mem negPt (List.mem_reverse.mpr hx)
  have hq' : negPt q ∈ S.reverse.map negPt :=
    List.mem_map_of_mem negPt (List.mem_reverse.mpr hq)
  have h1 : lexLT (negPt x) (negPt v) := lexLT_negPt.mpr hvx
  have h2 : lexLT (negPt v) (negPt q) := lexLT_negPt.mpr hqv
  have h3 := h (negPt x) (negPt q) hx' hq' h1 h2
  rwa [crossProduct_negPt] at h3

theorem essentialU_to_negPt {H : List (Vec2 α)} {v : Vec2 α} (h : EssentialU H v) :
    EssentialL ((sortPoints H).reverse.map negPt) (negPt v) := by
  intro x' q' hx' hq' hxv hvq
  obtain ⟨x, hx, rfl⟩ := List.mem_map.mp hx'
  obtain ⟨q, hq, rfl⟩ := List.mem_map.mp hq'
  have hxH : x ∈ H := mem_sortPoints.mp (List.mem_reverse.mp hx)
  have hqH : q ∈ H := mem_sortPoints.mp (List.mem_reverse.mp hq)
  have h1 : lexLT v x := lexLT_negPt.mp hxv
  have h2 : lexLT q v := lexLT_negPt.mp hvq
  have h3 := h x q hxH hqH h1 h2
  rwa [crossProduct_negPt]

/-- An upper-stack member is the lex-min, the lex-max, or upper-essential. -/
theorem up_mem_cases {pts : List (Vec2 α)} {v mx Mx : Vec2 α}
    (hmx : (sortPoints pts).head? = some mx)
    (hMx : (sortPoints pts).getLast? = some Mx)
    (hv : v ∈ buildChain (sortPoints pts).reverse) :
    v = mx ∨ v = Mx ∨ EssentialU (sortPoints pts) v := by
  rw [upStack_eq] at hv
  obtain ⟨w, hw, hwv⟩ := List.mem_map.mp hv
  have hS := sortPoints_sorted pts
  have hS2 := pairwise_rev_negPt hS
  have inv₂ := chainInv_sorted ((sortPoints pts).reverse.map negPt) hS2
  rcases mem_decomp hw with h | h | ⟨ab, bl, t, hsuf⟩
  · left
    rw [inv₂.top, List.getLast?_map, List.getLast?_reverse, hmx] at h
    simp only [Option.map_some', Option.some_inj] at h
    rw [← hwv, ← h, negPt_negPt]
  · right
    left
    rw [inv₂.bottom, List.head?_map, List.head?_reverse, hMx] at h
    simp only [Option.map_some', Option.some_inj] at h
    rw [← hwv, ← h, negPt_negPt]
  · have hess : EssentialL ((sortPoints pts).reverse.map negPt) (negPt v) := by
      have hwv' : w = negPt v := by rw [← hwv, negPt_negPt]
      rw [← hwv']
      exact interior_essential inv₂ hsuf
    exact Or.inr (Or.inr (essentialU_of_negPt hess))

/-- A lower-essential point distinct from the lex-max is a hull vertex. -/
theorem essential_mem_hull_low {H : List (Vec2 α)} {v : Vec2 α}
    (h4 : ¬H.length ≤ 3) (hvH : v ∈ H) (hess : EssentialL (sortPoints H) v)
    {Mx2 : Vec2 α} (hMx2 : (sortPoints H).getLast? = some Mx2) (hne : v ≠ Mx2) :
    v ∈ getConvexHull H := by
  have hS := sortPoints_sorted H
  have hstack : v ∈ buildChain (sortPoints H) :=
    essential_mem_buildChain hS (mem_sortPoints.mpr hvH) hess
  rw [getConvexHull_big h4]
  refine List.mem_append_left _ ?_
  refine mem_dropLast_of_ne (List.mem_reverse.mpr hstack) ?_ hne
  rw [List.getLast?_reverse, (chainInv_sorted _ hS).top, hMx2]

/-- An upper-essential point distinct from the lex-min is a hull vertex. -/
theorem essential_mem_hull_up {H : List (Vec2 α)} {v : Vec2 α}
    (h4 : ¬H.length ≤ 3) (hvH : v ∈ H) (hess : EssentialU H v)
    {mx2 : Vec2 α} (hmx2 : (sortPoints H).head? = some mx2) (hne : v ≠ mx2) :
    v ∈ getConvexHull H := by
  have hS := sortPoints_sorted H
  have hS2 : List.Pairwise lexLE ((sortPoints H).reverse.map negPt) :=
    pairwise_rev_negPt hS
  have hvS2 : negPt v ∈ (sortPoints H).reverse.map negPt :=
    List.mem_map_of_mem negPt (List.mem_reverse.mpr (mem_sortPoints.mpr hvH))
  have hstack2 : negPt v ∈ buildChain ((sortPoints H).reverse.map negPt) :=
    essential_mem_buildChain hS2 hvS2 (essentialU_to_negPt hess)
  have hstack : v ∈ buildChain (sortPoints H).reverse := by
    rw [upStack_eq]
    have h1 := List.mem_map_of_mem negPt hstack2
    rwa [negPt_negPt] at h1
  rw [getConvexHull_big h4]
  refine List.mem_append_right _ ?_
  refine mem_dropLast_of_ne (List.mem_reverse.mpr hstack) ?_ hne
  rw [List.getLast?_reverse, upStack_eq, List.head?_map,
    (chainInv_sorted _ hS2).top, List.getLast?_map, List.getLast?_reverse, hmx2]
  simp [negPt_negPt]

/-- The head of the sorted list is the lex-least member. -/
theorem head_eq_of_min {H : List (Vec2 α)} {m : Vec2 α} (hm : m ∈ H)
    (hmin : ∀ x ∈ H, lexLE m x) {m2 : Vec2 α}
    (hm2 : (sortPoints H).head? = some m2) : m2 = m := by
  have h1 : m2 ∈ H := mem_sortPoints.mp (mem_of_head? hm2)
  have h2 : lexLE m2 m :=
    sorted_head_le (sortPoints_sorted H) hm2 m (mem_sortPoints.mpr hm)
  exact lexLE_antisymm h2 (hmin m2 h1)

theorem last_eq_of_max {H : List (Vec2 α)} {m : Vec2 α} (hm : m ∈ H)
    (hmax : ∀ x ∈ H, lexLE x m) {m2 : Vec2 α}
    (hm2 : (sortPoints H).getLast? = some m2) : m2 = m := by
  have h1 : m2 ∈ H := mem_sortPoints.mp (mem_of_getLast? hm2)
  have h2 : lexLE m m2 :=
    sorted_le_getLast (sortPoints_sorted H) hm2 m (mem_sortPoints.mpr hm)
  exact lexLE_antisymm (hmax m2 h1) h2

theorem exists_head?_some {l : List (Vec2 α)} (h : 1 ≤ l.length) :
    ∃ v, l.head? = some v := by
  cases hh : l.head? with
  | none =>
    rw [List.head?_eq_none_iff] at hh
    rw [hh] at h
    simp at h
  | some v => exact ⟨v, rfl⟩

theorem exists_getLast?_some {l : List (Vec2 α)} (h : 1 ≤ l.length) :
    ∃ v, l.getLast? = some v := by
  cases hh : l.getLast? with
  | none =>
    rw [List.getLast?_eq_none_iff] at hh
    rw [hh] at h
    simp at h
  | some v => exact ⟨v, rfl⟩

/-- Set-level idempotence of `getConvexHull`: a second application returns
the same point set. -/
theorem hull_idempotent (pts : List (Vec2 α)) :
    ∀ x, x ∈ getConvexHull (getConvexHull pts) ↔ x ∈ getConvexHull pts := by
  intro v
  by_cases hH3 : (getConvexHull pts).length ≤ 3
  · rw [getConvexHull_small hH3]
  · constructor
    · exact fun hx => getConvexHull_subset hx
    · intro hv
      have h3 : ¬pts.length ≤ 3 := by
        intro h
        rw [getConvexHull_small h] at hH3
        exact hH3 h
      have hS := sortPoints_sorted pts
      have hlen : 4 ≤ (sortPoints pts).length := by
        rw [sortPoints_length]
        omega
      obtain ⟨mx, hmx⟩ := exists_head?_some (l := sortPoints pts) (by omega)
      obtain ⟨Mx, hMx⟩ := exists_getLast?_some (l := sortPoints pts) (by omega)
      have hHsub : ∀ y ∈ getConvexHull pts, y ∈ pts :=
        fun y hy => getConvexHull_subset hy
      have hlen2 : 4 ≤ (sortPoints (getConvexHull pts)).length := by
        rw [sortPoints_length]
        omega
      obtain ⟨mx2, hmx2⟩ :=
        exists_head?_some (l := sortPoints (getConvexHull pts)) (by omega)
      obtain ⟨Mx2, hMx2⟩ :=
        exists_getLast?_some (l := sortPoints (getConvexHull pts)) (by omega)
      have hminP : ∀ y ∈ pts, lexLE mx y :=
        fun y hy => sorted_head_le hS hmx y (mem_sortPoints.mpr hy)
      have hmaxP : ∀ y ∈ pts, lexLE y Mx :=
        fun y hy => sorted_le_getLast hS hMx y (mem_sortPoints.mpr hy)
      have hmxH : mx ∈ getConvexHull pts := (hull_extremes_mem h3 hmx hMx).1
      have hMxH : Mx ∈ getConvexHull pts := (hull_extremes_mem h3 hmx hMx).2
      have hmx2eq : mx2 = mx :=
        head_eq_of_min hmxH (fun y hy => hminP y (hHsub y hy)) hmx2
      have hMx2eq : Mx2 = Mx :=
        last_eq_of_max hMxH (fun y hy => hmaxP y (hHsub y hy)) hMx2
      by_cases hvmx : v = mx
      · rw [hvmx, ← hmx2eq]
        exact (hull_extremes_mem hH3 hmx2 hMx2).1
      · by_cases hvMx : v = Mx
        · rw [hvMx, ← hMx2eq]
          exact (hull_extremes_mem hH3 hmx2 hMx2).2
        · rw [getConvexHull_big h3] at hv
          rcases List.mem_append.mp hv with hvl | hvu
          · have hvstack : v ∈ buildChain (sortPoints pts) :=
              List.mem_reverse.mp (List.dropLast_subset _ hvl)
            rcases low_mem_cases hmx hMx hvstack with h | h | hess
            · exact absurd h hvmx
            · exact absurd h hvMx
            · have hvH : v ∈ getConvexHull pts := by
                rw [getConvexHull_big h3]
                exact List.mem_append_left _ hvl
              have hessH : EssentialL (sortPoints (getConvexHull pts)) v := by
                intro x q hx hq hxv hvq
                refine hess x q ?_ ?_ hxv hvq
                · exact mem_sortPoints.mpr (hHsub x (mem_sortPoints.mp hx))
                · exact mem_sortPoints.mpr (hHsub q (mem_sortPoints.mp hq))
              refine essential_mem_hull_low hH3 hvH hessH hMx2 ?_
              rw [hMx2eq]
              exact hvMx
          · have hvstack : v ∈ buildChain (sortPoints pts).reverse :=
              List.mem_reverse.mp (List.dropLast_subset _ hvu)
            rcases up_mem_cases hmx hMx hvstack with h | h | hess
            · exact absurd h hvmx
            · exact absurd h hvMx
            · have hvH : v ∈ getConvexHull pts := by
                rw [getConvexHull_big h3]
                exact List.mem_append_right _ hvu
              have hessH : EssentialU (getConvexHull pts) v := by
                intro x q hx hq hvx hqv
                refine hess x q ?_ ?_ hvx hqv
                · exact mem_sortPoints.mpr (hHsub x hx)
                · exact mem_sortPoints.mpr (hHsub q hq)
              refine essential_mem_hull_up hH3 hvH hessH hmx2 ?_
              rw [hmx2eq]
              exact hvmx

end HullProof

/-! ## Real-valued 2D vector functions (they take square roots) -/

/-- Embeds `len(v)` from script.js. -/
noncomputable def len (v : Vec2 ℝ) : ℝ :=
  Real.sqrt (v.x * v.x + v.y * v.y)

/-- Embeds `norm(v)` from script.js: `l > 0 ? mul(v, 1 / l) : vec2(0, 0)`. -/
noncomputable def norm (v : Vec2 ℝ) : Vec2 ℝ :=
  if 0 < len v then mul v (1 / len v) else ⟨0, 0⟩

/-- Embeds `refract2D(dir, normal, n1, n2)` from script.js: flip the normal
when `cosI < 0`, return `null` on total internal reflection
(`sinT2 > 1.0`), otherwise the normalised refracted direction. -/
noncomputable def refract2D (dir normal : Vec2 ℝ) (n1 n2 : ℝ) : Option (Vec2 ℝ) :=
  let N0 := normal
  let cosI0 := -dot dir N0
  let N := if cosI0 < 0 then mul N0 (-1) else N0
  let cosI := if cosI0 < 0 then -dot dir (mul N0 (-1)) else cosI0
  let eta := n1 / n2
  let sinT2 := eta * eta * (1 - cosI * cosI)
  if 1 < sinT2 then none
  else
    let cosT := Real.sqrt (1 - sinT2)
    some (norm (add (mul dir eta) (mul N (eta * cosI - cosT))))

/-- A ray–hull hit as returned by `intersectRayHull`: ray parameter, hit
point, outward edge normal and the index of the edge that was struck. -/
structure HullHit where
  t : ℝ
  point : Vec2 ℝ
  normal : Vec2 ℝ
  index : ℕ

/-- The centroid accumulation at the start of `intersectRayHull`. -/
noncomputable def hullCenter (hull : List (Vec2 ℝ)) : Vec2 ℝ :=
  ⟨(hull.map Vec2.x).sum / hull.length, (hull.map Vec2.y).sum / hull.length⟩

/-- The edge-normal computation inside `intersectRayHull`: the left normal of
the edge, flipped to point away from the hull centre. -/
noncomputable def edgeNormal (p1 p2 center : Vec2 ℝ) : Vec2 ℝ :=
  let edge := sub p2 p1
  let N := norm ⟨-edge.y, edge.x⟩
  if dot N (sub p1 center) < 0 then mul N (-1) else N

/-- Embeds `intersectRayHull(origin, dir, hull, ignoreIndex)` from script.js:
scan every edge, keep the closest hit with `t > 0.001`, skipping the edge
`ignoreIndex` (the JS `-1` sentinel is `none`). -/
noncomputable def intersectRayHull (origin dir : Vec2 ℝ) (hull : List (Vec2 ℝ))
    (ignoreIndex : Option ℕ) : Option HullHit :=
  if hull.length = 0 then none
  else
    let center := hullCenter hull
    let n := hull.length
    (List.range n).foldl
      (fun best i =>
        if ignoreIndex = some i then best
        else
          let p1 := hull.getD i ⟨0, 0⟩
          let p2 := hull.getD ((i + 1) % n) ⟨0, 0⟩
          match intersectRaySegment origin dir p1 p2 with
          | none => best
          | some hit =>
            match best with
            | none =>
              if 1 / 1000 < hit.t then some ⟨hit.t, hit.point, edgeNormal p1 p2 center, i⟩
              else none
            | some b =>
              if 1 / 1000 < hit.t ∧ hit.t < b.t then
                some ⟨hit.t, hit.point, edgeNormal p1 p2 center, i⟩
              else some b)
      none

/-- A ray–canvas-bounds hit as returned by `intersectRayBounds`. -/
structure WallHit where
  t : ℝ
  point : Vec2 ℝ
  normal : Vec2 ℝ

/-- One candidate update of the running minimum inside `intersectRayBounds`:
accept `t` if `t > 0.001`, `t < tMin` and the other coordinate `q` lies in
`[0, bound]`. -/
noncomputable def updateBound (s : Option (ℝ × Vec2 ℝ)) (t q bound : ℝ) (nrm : Vec2 ℝ) :
    Option (ℝ × Vec2 ℝ) :=
  match s with
  | none => if 1 / 1000 < t ∧ 0 ≤ q ∧ q ≤ bound then some (t, nrm) else none
  | some b =>
    if 1 / 1000 < t ∧ t < b.1 ∧ 0 ≤ q ∧ q ≤ bound then some (t, nrm) else some b

/-- Embeds `intersectRayBounds(origin, dir, w, h)` from script.js: the four
wall candidates in source order, then the closest accepted one. -/
noncomputable def intersectRayBounds (origin dir : Vec2 ℝ) (w h : ℝ) : Option WallHit :=
  let s0 : Option (ℝ × Vec2 ℝ) := none
  let s1 :=
    if dir.x ≠ 0 then
      let t := (0 - origin.x) / dir.x
      updateBound s0 t (origin.y + t * dir.y) h ⟨1, 0⟩
    else s0
  let s2 :=
    if dir.x ≠ 0 then
      let t := (w - origin.x) / dir.x
      updateBound s1 t (origin.y + t * dir.y) h ⟨-1, 0⟩
    else s1
  let s3 :=
    if dir.y ≠ 0 then
      let t := (0 - origin.y) / dir.y
      updateBound s2 t (origin.x + t * dir.x) w ⟨0, 1⟩
    else s2
  let s4 :=
    if dir.y ≠ 0 then
      let t := (h - origin.y) / dir.y
      updateBound s3 t (origin.x + t * dir.x) w ⟨0, -1⟩
    else s3
  match s4 with
  | none => none
  | some b => some ⟨b.1, add origin (mul dir b.1), b.2⟩

/-! ## Spectrum and recursive ray tracing -/

/-- One entry of the `SPECTRUM` table. -/
structure Band where
  name : String
  color : String
  opacity : ℝ
  n : ℝ

/-- Embeds `N_AIR` from script.js. -/
def N_AIR : ℝ := 1

/-- Embeds the `SPECTRUM` table from script.js (refractive indices are the
exact decimal literals of the source). -/
noncomputable def SPECTRUM : List Band :=
  [⟨"red", "#ff2a6d", 8 / 10, 142 / 100⟩,
   ⟨"orange", "#ff9f0a", 8 / 10, 152 / 100⟩,
   ⟨"yellow", "#ffd60a", 8 / 10, 162 / 100⟩,
   ⟨"green", "#05f7a5", 8 / 10, 172 / 100⟩,
   ⟨"blue", "#0a84ff", 9 / 10, 182 / 100⟩,
   ⟨"indigo", "#5e5ce6", 9 / 10, 192 / 100⟩,
   ⟨"violet", "#bf5af2", 1, 202 / 100⟩]

/-- A beam pushed onto `activeBeams` by `traceSpectralRay`, together with the
accumulated alpha the recursion carried when the beam was drawn. -/
structure BeamRec where
  p1 : Vec2 ℝ
  p2 : Vec2 ℝ
  alpha : ℝ

/-- The target/type selection of `traceSpectralRay`: prefer the closer of the
hull hit and the wall hit, in the source's branch order. -/
inductive TraceTarget where
  | wall (wh : WallHit)
  | onHull (hh : HullHit)
  | nothing

/-- Embeds the `if (hullHit && wallHit) ... else if ...` target selection of
`traceSpectralRay`. -/
noncomputable def selectTarget : Option HullHit → Option WallHit → TraceTarget
  | some hh, some wh => if hh.t < wh.t then .onHull hh else .wall wh
  | some hh, none => .onHull hh
  | none, some wh => .wall wh
  | none, none => .nothing

/-- Embeds `traceSpectralRay(startPoint, direction, band, depth, currentAlpha)`
from the render function of script.js.  The canvas context drawing calls are
abstracted to the list of beam segments the function pushes onto
`activeBeams`, each recorded with the alpha the recursion carried; the
recursion structure (the two entry guards, the target selection, the
per-event attenuation factors 0.8 / 0.6 / 0.9, and `depth - 1` on every
recursive call) is the source's. -/
noncomputable def traceSpectralRay (hull : List (Vec2 ℝ)) (w h : ℝ) (band : Band) :
    ℕ → Vec2 ℝ → Vec2 ℝ → ℝ → List BeamRec
  | 0, _, _, _ => []
  | depth + 1, startPoint, direction, currentAlpha =>
    if currentAlpha < 1 / 100 then []
    else
      let hullHit := intersectRayHull (add startPoint (mul direction 1)) direction hull none
      let wallHit := intersectRayBounds (add startPoint (mul direction 1)) direction w h
      match selectTarget hullHit wallHit with
      | .nothing => []
      | .wall wh =>
        ⟨startPoint, wh.point, currentAlpha⟩ ::
          traceSpectralRay hull w h band depth wh.point (reflect direction wh.normal)
            (currentAlpha * (8 / 10))
      | .onHull hh =>
        ⟨startPoint, hh.point, currentAlpha⟩ ::
          (match refract2D direction hh.normal N_AIR band.n with
          | none =>
            traceSpectralRay hull w h band depth hh.point (reflect direction hh.normal)
              (currentAlpha * (6 / 10))
          | some dIn =>
            match intersectRayHull (add hh.point (mul dIn (1 / 10))) dIn hull
                (some hh.index) with
            | none => []
            | some exitHit =>
              match refract2D dIn exitHit.normal band.n N_AIR with
              | none => []
              | some dOut =>
                traceSpectralRay hull w h band depth exitHit.point dOut
                  (currentAlpha * (9 / 10)))

/-! ## The per-frame entry test and spectral dispersion (render, steps 6) -/

/-- An internal (entry-to-exit) beam drawn inside the spectral band loop. -/
structure InternalBeam where
  p1 : Vec2 ℝ
  p2 : Vec2 ℝ
  band : Band

/-- Embeds the spectral band loop of `render` (the `for (sp...)` loop): for
each band refract at the entry normal, find the exit, draw the internal
beam, refract on exit and hand the exterior ray to `traceSpectralRay` with
`currentQuality.maxBounces` and `globalAlpha`. -/
noncomputable def spectralLoop (hull : List (Vec2 ℝ)) (w h : ℝ) (rayDir : Vec2 ℝ)
    (entry : HullHit) (globalAlpha : ℝ) (maxBounces : ℕ) :
    List InternalBeam × List BeamRec :=
  SPECTRUM.foldl
    (fun acc band =>
      match refract2D rayDir entry.normal N_AIR band.n with
      | none => acc
      | some dIn =>
        match intersectRayHull (add entry.point (mul dIn (1 / 10))) dIn hull
            (some entry.index) with
        | none => acc
        | some exitHit =>
          let acc1 := (acc.1 ++ [⟨entry.point, exitHit.point, band⟩], acc.2)
          match refract2D dIn exitHit.normal band.n N_AIR with
          | none => acc1
          | some dOut =>
            (acc1.1,
             acc1.2 ++ traceSpectralRay hull w h band maxBounces exitHit.point dOut globalAlpha))
    ([], [])

/-- The observable outcome of one frame's entry test (render, after the hull
is computed): the updated `globalAlpha`, the entry hit, the main-beam
endpoint, whether the white beam is drawn (`globalAlpha > 0.001`), and the
spectral work — `none` when the dispersion path is not entered
(`entryHit && globalAlpha > 0.01` fails). -/
structure FrameOutcome where
  rayDir : Vec2 ℝ
  entryHit : Option HullHit
  globalAlpha : ℝ
  beamEnd : Vec2 ℝ
  whiteBeamDrawn : Bool
  spectral : Option (List InternalBeam × List BeamRec)

/-- Embeds the entry-test slice of `render` (script.js lines 2552–2553 and
2707–2752): the primary ray direction from the smoothed pointer toward the
canvas centre, the hull entry test, the smoothed `globalAlpha` update
`globalAlpha += (targetAlpha - globalAlpha) * 0.1`, the main-beam endpoint,
and the spectral dispersion dispatch. -/
noncomputable def frameEntry (mouse : Vec2 ℝ) (w h : ℝ) (hull : List (Vec2 ℝ))
    (globalAlpha : ℝ) (maxBounces : ℕ) : FrameOutcome :=
  let center : Vec2 ℝ := ⟨w / 2, h / 2⟩
  let rayDir := norm (sub center mouse)
  let entryHit := intersectRayHull mouse rayDir hull none
  let targetAlpha : ℝ := if entryHit.isSome then 1 else 0
  let g := globalAlpha + (targetAlpha - globalAlpha) * (1 / 10)
  let beamEnd :=
    match entryHit with
    | some e => e.point
    | none => add mouse (mul rayDir (max w h))
  { rayDir := rayDir
    entryHit := entryHit
    globalAlpha := g
    beamEnd := beamEnd
    whiteBeamDrawn := decide (1 / 1000 < g)
    spectral :=
      match entryHit with
      | some e => if 1 / 100 < g then some (spectralLoop hull w h rayDir e g maxBounces) else none
      | none => none }

/-! ## Spring physics -/

/-- Embeds the spring constants of script.js:
`SPRING_MASS = 2.0`, `SPRING_STIFFNESS = 80`, `SPRING_DAMPING = 18`,
`SPRING_DT = 0.016`. -/
def SPRING_MASS : ℚ := 2

def SPRING_STIFFNESS : ℚ := 80

def SPRING_DAMPING : ℚ := 18

def SPRING_DT : ℚ := 16 / 1000

/-- A spring axis state `{ pos, vel }`. -/
structure Spring where
  pos : ℚ
  vel : ℚ
deriving DecidableEq, Repr

/-- Embeds `updateSpring(spring, target)` from script.js, in the source's
update order: force from displacement and damping, acceleration, velocity
update, then position update with the new velocity. -/
def updateSpring (s : Spring) (target : ℚ) : Spring :=
  let displacement := s.pos - target
  let springForce := -SPRING_STIFFNESS * displacement
  let dampingForce := -SPRING_DAMPING * s.vel
  let totalForce := springForce + dampingForce
  let acceleration := totalForce / SPRING_MASS
  let vel := s.vel + acceleration * SPRING_DT
  ⟨s.pos + vel * SPRING_DT, vel⟩

/-- The spring state after `n` frames with a constant target. -/
def springIter (target : ℚ) (s : Spring) : ℕ → Spring
  | 0 => s
  | n + 1 => updateSpring (springIter target s n) target

/-! ## Quality tiers and the FPS monitor -/

/-- The four tier names of the `QualityTier` table in script.js. -/
inductive TierName where
  | HIGH
  | MEDIUM
  | LOW
  | MINIMAL
deriving DecidableEq, Repr

/-- One record of the `QualityTier` table. -/
structure TierRecord where
  maxBounces : ℕ
  starCount : ℕ
  dustCount : ℕ
  subdivisions : ℕ
  smokeEnabled : Bool
deriving DecidableEq, Repr

/-- Embeds the `QualityTier` table from script.js. -/
def QualityTier : TierName → TierRecord
  | .HIGH => ⟨4, 250, 100, 2, true⟩
  | .MEDIUM => ⟨3, 100, 50, 1, true⟩
  | .LOW => ⟨2, 50, 25, 1, false⟩
  | .MINIMAL => ⟨1, 25, 0, 0, false⟩

/-- Embeds `detectQualityTier()` from script.js.  The three environment
probes (`prefers-reduced-motion`, the user-agent mobile test, and
`window.innerWidth < 768`) are taken as boolean inputs. -/
def detectQualityTier (prefersReducedMotion isMobile isSmallViewport : Bool) : TierName :=
  if prefersReducedMotion then .MINIMAL
  else if isMobile && isSmallViewport then .LOW
  else if isMobile then .MEDIUM
  else .HIGH

/-- Embeds `initializeParticles(w, h)` pool sizes: the loops push
`currentQuality.starCount` stars and `currentQuality.dustCount` dust
particles.  Particle construction is randomised in the source, so each
particle is abstracted to `Unit`; the pool sizes are the observable. -/
def initializeParticles (q : TierRecord) : List Unit × List Unit :=
  (List.replicate q.starCount (), List.replicate q.dustCount ())

/-- Embeds `downgradeQuality()` tier transition from script.js: one step of
`HIGH → MEDIUM → LOW → MINIMAL`; none of the branches match on `MINIMAL`, so
it stays. -/
def downgradeTier : TierName → TierName
  | .HIGH => .MEDIUM
  | .MEDIUM => .LOW
  | .LOW => .MINIMAL
  | .MINIMAL => .MINIMAL

/-- Rank of a tier in the downgrade order (`MINIMAL` lowest). -/
def tierRank : TierName → ℕ
  | .HIGH => 3
  | .MEDIUM => 2
  | .LOW => 1
  | .MINIMAL => 0

/-- The `fpsMonitor` record of script.js plus the active tier name. -/
structure EngineState where
  tier : TierName
  frameCount : ℕ
  lastCheck : ℚ
  currentFPS : ℚ
  downgraded : Bool
deriving DecidableEq, Repr

/-- Embeds the FPS-monitoring block at the top of `render` (script.js lines
2502–2515) together with `downgradeQuality()`: count the frame; once the
rolling window reaches 1000 ms, compute the FPS, reset the window, and if
the FPS is below 25 and the session has not yet downgraded, step the tier
down one level and latch. -/
def fpsStep (s : EngineState) (now : ℚ) : EngineState :=
  let frameCount := s.frameCount + 1
  let elapsed := now - s.lastCheck
  if 1000 ≤ elapsed then
    let fps := frameCount * 1000 / elapsed
    if fps < 25 ∧ s.downgraded = false then
      { tier := downgradeTier s.tier
        frameCount := 0
        lastCheck := now
        currentFPS := fps
        downgraded := true }
    else
      { s with frameCount := 0, lastCheck := now, currentFPS := fps }
  else
    { s with frameCount := frameCount }

/-- A whole session: the monitor folded over the frame timestamps. -/
def fpsRun (s : EngineState) (times : List ℚ) : EngineState :=
  times.foldl fpsStep s

/-! ## Icosphere subdivision (generateGeometry)

The `subdivide` closure in `generateGeometry` touches vertex values only in
one place: the normalised edge-midpoint.  It is embedded generically over the
vertex type `α` with the midpoint operation `mid` as a parameter; the counting
claims hold for every instantiation, and the instantiation at `Unit` makes the
counts kernel-computable. -/

/-- A triangular face: an ordered triple of vertex indices. -/
abbrev Face := ℕ × ℕ × ℕ

/-- Embeds the cache key `i1 < i2 ? i1+'-'+i2 : i2+'-'+i1` of
`getMidPointIndex`. -/
def edgeKey (i1 i2 : ℕ) : ℕ × ℕ :=
  if i1 < i2 then (i1, i2) else (i2, i1)

/-- Embeds `getMidPointIndex(i1, i2)` from `generateGeometry`: look the edge
up in the memo; on a miss, append the midpoint of the two endpoint vertices
(`mid`, in the source the normalised average) and record its index. -/
def getMidPointIndex {α : Type} (mid : α → α → α) (d0 : α)
    (verts : List α) (cache : List ((ℕ × ℕ) × ℕ)) (i1 i2 : ℕ) :
    List α × List ((ℕ × ℕ) × ℕ) × ℕ :=
  let key := edgeKey i1 i2
  match cache.lookup key with
  | some idx => (verts, cache, idx)
  | none =>
    let v1 := verts.getD i1 d0
    let v2 := verts.getD i2 d0
    let idx := verts.length
    (verts ++ [mid v1 v2], (key, idx) :: cache, idx)

/-- Embeds the body of the face loop in `subdivide`: split one face into 4
(`a`, `b`, `c` are the three midpoint indices, in source order). -/
def subdivideFace {α : Type} (mid : α → α → α) (d0 : α)
    (st : (List α × List ((ℕ × ℕ) × ℕ)) × List Face) (f : Face) :
    (List α × List ((ℕ × ℕ) × ℕ)) × List Face :=
  let i0 := f.1
  let i1 := f.2.1
  let i2 := f.2.2
  let r1 := getMidPointIndex mid d0 st.1.1 st.1.2 i0 i1
  let r2 := getMidPointIndex mid d0 r1.1 r1.2.1 i1 i2
  let r3 := getMidPointIndex mid d0 r2.1 r2.2.1 i2 i0
  let a := r1.2.2
  let b := r2.2.2
  let c := r3.2.2
  ((r3.1, r3.2.1), st.2 ++ [(i0, a, c), (i1, b, a), (i2, c, b), (a, b, c)])

/-- Embeds one `subdivide(currentVerts, currentFaces)` pass from
`generateGeometry`. -/
def subdivide {α : Type} (mid : α → α → α) (d0 : α)
    (verts : List α) (faces : List Face) : List α × List Face :=
  let res := faces.foldl (subdivideFace mid d0) ((verts, []), [])
  (res.1.1, res.2)

/-- Embeds the subdivision loop
`for (var s = 0; s < subdivisionLevel; s++) mesh = subdivide(mesh.v, mesh.f)`. -/
def subdivideIter {α : Type} (mid : α → α → α) (d0 : α) :
    ℕ → List α × List Face → List α × List Face
  | 0, m => m
  | n + 1, m => subdivideIter mid d0 n (subdivide mid d0 m.1 m.2)

/-- The `BASE_FACES` table of the icosahedron from script.js. -/
def BASE_FACES : List Face :=
  [(0, 11, 5), (0, 5, 1), (0, 1, 7), (0, 7, 10), (0, 10, 11),
   (1, 5, 9), (5, 11, 4), (11, 10, 2), (10, 7, 6), (7, 1, 8),
   (3, 9, 4), (3, 4, 2), (3, 2, 6), (3, 6, 8), (3, 8, 9),
   (4, 9, 5), (2, 4, 11), (6, 2, 10), (8, 6, 7), (9, 8, 1)]

/-- Distinct-edge collector step (the same insertion discipline as the
midpoint memo: append on first occurrence). -/
def insertEdge (acc : List (ℕ × ℕ)) (k : ℕ × ℕ) : List (ℕ × ℕ) :=
  if k ∈ acc then acc else acc ++ [k]

/-- The three edge keys of one face, in the order `getMidPointIndex` visits
them. -/
def faceEdgeKeys (f : Face) : List (ℕ × ℕ) :=
  [edgeKey f.1 f.2.1, edgeKey f.2.1 f.2.2, edgeKey f.2.2 f.1]

/-- All distinct edges of a face list, in first-occurrence order. -/
def distinctEdges (faces : List Face) : List (ℕ × ℕ) :=
  faces.foldl (fun acc f => (faceEdgeKeys f).foldl insertEdge acc) []

/-! ### The real-valued instantiation of generateGeometry -/

/-- A 3D point `{x, y, z}`. -/
structure Vec3 where
  x : ℝ
  y : ℝ
  z : ℝ

/-- Normalisation to the unit sphere, as done to `BASE_VERTS` and to the edge
midpoints in `generateGeometry` (`mid.x / l` etc. with
`l = Math.sqrt(x*x + y*y + z*z)`). -/
noncomputable def normalize3 (v : Vec3) : Vec3 :=
  let l := Real.sqrt (v.x * v.x + v.y * v.y + v.z * v.z)
  ⟨v.x / l, v.y / l, v.z / l⟩

/-- The midpoint-then-normalise operation of `getMidPointIndex`. -/
noncomputable def midNormalize (v1 v2 : Vec3) : Vec3 :=
  normalize3 ⟨(v1.x + v2.x) / 2, (v1.y + v2.y) / 2, (v1.z + v2.z) / 2⟩

/-- Embeds `t_val = (1.0 + Math.sqrt(5.0)) / 2.0`. -/
noncomputable def t_val : ℝ := (1 + Real.sqrt 5) / 2

/-- The `BASE_VERTS` table of the icosahedron from script.js. -/
noncomputable def BASE_VERTS : List Vec3 :=
  [⟨-1, t_val, 0⟩, ⟨1, t_val, 0⟩, ⟨-1, -t_val, 0⟩, ⟨1, -t_val, 0⟩,
   ⟨0, -1, t_val⟩, ⟨0, 1, t_val⟩, ⟨0, -1, -t_val⟩, ⟨0, 1, -t_val⟩,
   ⟨t_val, 0, -1⟩, ⟨t_val, 0, 1⟩, ⟨-t_val, 0, -1⟩, ⟨-t_val, 0, 1⟩]

/-- Embeds `seededRandom(seed)` from script.js:
`Math.sin(seed) * 10000` minus its floor. -/
noncomputable def seededRandom (seed : ℝ) : ℝ :=
  Real.sin seed * 10000 - ⌊Real.sin seed * 10000⌋

/-- Embeds the per-vertex displacement scale of `generateGeometry`. -/
noncomputable def displaceScale (idx : ℕ) : ℝ :=
  let seed := idx * (9999 / 10)
  let n1 := seededRandom seed
  let n2 := seededRandom (seed * (713 / 100))
  let n3 := seededRandom (seed * (141 / 100))
  let n4 := seededRandom (seed * (2 / 10))
  let s1 : ℝ :=
    if n1 < 35 / 100 then 1 - (15 / 100 + n1 * (15 / 100))
    else if 75 / 100 < n1 then 1 + (1 / 10 + n2 * (5 / 100))
    else 1
  s1 + (n3 - 1 / 2) * (6 / 100) + (n4 - 1 / 2) * (12 / 100)

/-- Embeds `generateGeometry(subdivisionLevel)` from script.js: normalise the
base vertices, copy the base faces, run the subdivision passes, then apply
the per-vertex procedural displacement. -/
noncomputable def generateGeometry (subdivisionLevel : ℕ) : List Vec3 × List Face :=
  let verts0 := BASE_VERTS.map normalize3
  let mesh := subdivideIter midNormalize ⟨0, 0, 0⟩ subdivisionLevel (verts0, BASE_FACES)
  (mesh.1.enum.map fun vi =>
    let s := displaceScale vi.1
    ⟨vi.2.x * s, vi.2.y * s, vi.2.z * s⟩,
   mesh.2)

/-- The vertex-count/face model of the mesh at `Unit` vertex type: the
subdivision bookkeeping (indices, memo, faces) never inspects vertex values,
so counts are computable here. -/
def unitIcosphere (n : ℕ) : List Unit × List Face :=
  subdivideIter (fun _ _ => ()) () n (List.replicate 12 (), BASE_FACES)

/-! # Claim C10: inputs of at most 3 points pass through unchanged -/

/-- C10: for every input list of at most 3 points, `getConvexHull` returns
the input list itself, unchanged and in its original order. -/
theorem c10_hull_small_identity {α : Type} [LinearOrderedField α]
    (points : List (Vec2 α)) (h : points.length ≤ 3) :
    getConvexHull points = points := by
  unfold getConvexHull
  simp [h]

/-- Witness for C10 at a concrete three-point input. -/
theorem c10_hull_small_identity_witness :
    getConvexHull [(⟨0, 0⟩ : Vec2 ℚ), ⟨2, 3⟩, ⟨1, 1⟩] = [⟨0, 0⟩, ⟨2, 3⟩, ⟨1, 1⟩] :=
  c10_hull_small_identity _ (by decide)

/-! # Claim C8: startup tier classification -/

/-- C8: `detectQualityTier` returns MINIMAL under reduced motion, LOW for
small-viewport mobile, MEDIUM for other mobile and HIGH otherwise; the
MINIMAL record has `maxBounces = 1`, `dustCount = 0`,
`smokeEnabled = false`; and a MINIMAL session generates an empty dust pool. -/
theorem c8_detect_tier_spec :
    (∀ m s, detectQualityTier true m s = .MINIMAL) ∧
    detectQualityTier false true true = .LOW ∧
    detectQualityTier false true false = .MEDIUM ∧
    (∀ s, detectQualityTier false false s = .HIGH) ∧
    (QualityTier .MINIMAL).maxBounces = 1 ∧
    (QualityTier .MINIMAL).dustCount = 0 ∧
    (QualityTier .MINIMAL).smokeEnabled = false ∧
    (initializeParticles (QualityTier .MINIMAL)).2 = [] :=
  ⟨fun _ _ => rfl, rfl, rfl, fun _ => rfl, rfl, rfl, rfl, rfl⟩

/-! # Claim C2: subdivision counting -/

theorem foldl_subdivideFace_faces_length {α : Type} (mid : α → α → α) (d0 : α)
    (fs : List Face) :
    ∀ st, ((fs.foldl (subdivideFace mid d0) st).2).length = st.2.length + 4 * fs.length := by
  induction fs with
  | nil => intro st; simp
  | cons f fs ih =>
    intro st
    rw [List.foldl_cons, ih]
    simp only [subdivideFace, List.length_append, List.length_cons, List.length_nil,
      List.length_singleton]
    omega

/-- Each subdivision pass quadruples the face count, for every vertex type
and midpoint operation. -/
theorem subdivide_faces_length {α : Type} (mid : α → α → α) (d0 : α)
    (vs : List α) (fs : List Face) :
    (subdivide mid d0 vs fs).2.length = 4 * fs.length := by
  unfold subdivide
  simpa using foldl_subdivideFace_faces_length mid d0 fs ((vs, []), [])

/-- Invariant tying the vertex list and midpoint memo of a subdivision pass
to the distinct-edge accumulator: one new vertex per memo entry, one memo
entry per distinct edge seen so far. -/
def CacheInv {α : Type} (N : ℕ) (verts : List α) (cache : List ((ℕ × ℕ) × ℕ))
    (acc : List (ℕ × ℕ)) : Prop :=
  verts.length = N + cache.length ∧ cache.length = acc.length ∧
    ∀ k, (cache.lookup k).isSome ↔ k ∈ acc

theorem getMidPointIndex_inv {α : Type} (mid : α → α → α) (d0 : α) {N : ℕ}
    {verts : List α} {cache : List ((ℕ × ℕ) × ℕ)} {acc : List (ℕ × ℕ)}
    (h : CacheInv N verts cache acc) (i1 i2 : ℕ) :
    CacheInv N (getMidPointIndex mid d0 verts cache i1 i2).1
      (getMidPointIndex mid d0 verts cache i1 i2).2.1
      (insertEdge acc (edgeKey i1 i2)) := by
  obtain ⟨h1, h2, h3⟩ := h
  unfold getMidPointIndex insertEdge
  cases hl : cache.lookup (edgeKey i1 i2) with
  | some idx =>
    have hmem : edgeKey i1 i2 ∈ acc := (h3 _).1 (by simp [hl])
    simp only [hl, if_pos hmem]
    exact ⟨h1, h2, h3⟩
  | none =>
    have hmem : edgeKey i1 i2 ∉ acc := by
      intro hmem
      have := (h3 _).2 hmem
      simp [hl] at this
    simp only [hl, if_neg hmem]
    refine ⟨by simp; omega, by simp [h2], fun k => ?_⟩
    rcases eq_or_ne k (edgeKey i1 i2) with hk | hk
    · subst hk
      simp [List.lookup]
    · have hbe : (k == edgeKey i1 i2) = false := beq_eq_false_iff_ne.mpr hk
      simp [List.lookup, hbe, h3 k, hk]

theorem subdivideFace_inv {α : Type} (mid : α → α → α) (d0 : α) {N : ℕ}
    {st : (List α × List ((ℕ × ℕ) × ℕ)) × List Face} {acc : List (ℕ × ℕ)}
    (h : CacheInv N st.1.1 st.1.2 acc) (f : Face) :
    CacheInv N (subdivideFace mid d0 st f).1.1 (subdivideFace mid d0 st f).1.2
      ((faceEdgeKeys f).foldl insertEdge acc) := by
  have s1 := getMidPointIndex_inv mid d0 h f.1 f.2.1
  have s2 := getMidPointIndex_inv mid d0 s1 f.2.1 f.2.2
  have s3 := getMidPointIndex_inv mid d0 s2 f.2.2 f.1
  simpa [subdivideFace, faceEdgeKeys] using s3

theorem foldl_subdivideFace_inv {α : Type} (mid : α → α → α) (d0 : α)
    (fs : List Face) :
    ∀ st acc N, CacheInv N st.1.1 st.1.2 acc →
      CacheInv N (fs.foldl (subdivideFace mid d0) st).1.1
        (fs.foldl (subdivideFace mid d0) st).1.2
        (fs.foldl (fun a f => (faceEdgeKeys f).foldl insertEdge a) acc) := by
  induction fs with
  | nil => intro st acc N h; simpa using h
  | cons f fs ih =>
    intro st acc N h
    rw [List.foldl_cons, List.foldl_cons]
    exact ih _ _ _ (subdivideFace_inv mid d0 h f)

/-- Each subdivision pass adds exactly one vertex per distinct edge:
`V' = V + E`, for every vertex type and midpoint operation. -/
theorem subdivide_verts_length {α : Type} (mid : α → α → α) (d0 : α)
    (vs : List α) (fs : List Face) :
    (subdivide mid d0 vs fs).1.length = vs.length + (distinctEdges fs).length := by
  have h0 : CacheInv vs.length ((vs, ([] : List ((ℕ × ℕ) × ℕ))), ([] : List Face)).1.1
      ((vs, ([] : List ((ℕ × ℕ) × ℕ))), ([] : List Face)).1.2 ([] : List (ℕ × ℕ)) := by
    refine ⟨by simp, rfl, fun k => by simp⟩
  have := foldl_subdivideFace_inv mid d0 fs ((vs, []), []) [] vs.length h0
  obtain ⟨h1, h2, _⟩ := this
  have e0 : (subdivide mid d0 vs fs).1 = (fs.foldl (subdivideFace mid d0) ((vs, []), [])).1.1 :=
    rfl
  have e2 : distinctEdges fs = fs.foldl (fun a f => (faceEdgeKeys f).foldl insertEdge a) [] :=
    rfl
  rw [e0, h1, h2, e2]

theorem getMidPointIndex_sim {α β : Type} (mid1 : α → α → α) (d1 : α)
    (mid2 : β → β → β) (d2 : β) {v1 : List α} {v2 : List β}
    {c1 c2 : List ((ℕ × ℕ) × ℕ)} (hv : v1.length = v2.length) (hc : c1 = c2)
    (i1 i2 : ℕ) :
    (getMidPointIndex mid1 d1 v1 c1 i1 i2).1.length =
        (getMidPointIndex mid2 d2 v2 c2 i1 i2).1.length ∧
      (getMidPointIndex mid1 d1 v1 c1 i1 i2).2.1 =
        (getMidPointIndex mid2 d2 v2 c2 i1 i2).2.1 ∧
      (getMidPointIndex mid1 d1 v1 c1 i1 i2).2.2 =
        (getMidPointIndex mid2 d2 v2 c2 i1 i2).2.2 := by
  subst hc
  unfold getMidPointIndex
  cases hl : c1.lookup (edgeKey i1 i2) with
  | some idx => simp [hl, hv]
  | none => simp [hl, hv]

theorem subdivideFace_sim {α β : Type} (mid1 : α → α → α) (d1 : α)
    (mid2 : β → β → β) (d2 : β)
    {s1 : (List α × List ((ℕ × ℕ) × ℕ)) × List Face}
    {s2 : (List β × List ((ℕ × ℕ) × ℕ)) × List Face}
    (hv : s1.1.1.length = s2.1.1.length) (hc : s1.1.2 = s2.1.2) (hf : s1.2 = s2.2)
    (f : Face) :
    (subdivideFace mid1 d1 s1 f).1.1.length = (subdivideFace mid2 d2 s2 f).1.1.length ∧
      (subdivideFace mid1 d1 s1 f).1.2 = (subdivideFace mid2 d2 s2 f).1.2 ∧
      (subdivideFace mid1 d1 s1 f).2 = (subdivideFace mid2 d2 s2 f).2 := by
  obtain ⟨e1, e2, e3⟩ := getMidPointIndex_sim mid1 d1 mid2 d2 hv hc f.1 f.2.1
  obtain ⟨e4, e5, e6⟩ := getMidPointIndex_sim mid1 d1 mid2 d2 e1 e2 f.2.1 f.2.2
  obtain ⟨e7, e8, e9⟩ := getMidPointIndex_sim mid1 d1 mid2 d2 e4 e5 f.2.2 f.1
  refine ⟨?_, ?_, ?_⟩
  · simpa only [subdivideFace] using e7
  · simpa only [subdivideFace] using e8
  · simp only [subdivideFace]
    rw [hf, e3, e6, e9]

theorem foldl_subdivideFace_sim {α β : Type} (mid1 : α → α → α) (d1 : α)
    (mid2 : β → β → β) (d2 : β) (fs : List Face) :
    ∀ (s1 : (List α × List ((ℕ × ℕ) × ℕ)) × List Face)
      (s2 : (List β × List ((ℕ × ℕ) × ℕ)) × List Face),
      s1.1.1.length = s2.1.1.length → s1.1.2 = s2.1.2 → s1.2 = s2.2 →
      (fs.foldl (subdivideFace mid1 d1) s1).1.1.length =
          (fs.foldl (subdivideFace mid2 d2) s2).1.1.length ∧
        (fs.foldl (subdivideFace mid1 d1) s1).2 =
          (fs.foldl (subdivideFace mid2 d2) s2).2 := by
  induction fs with
  | nil => intro s1 s2 hv hc hf; exact ⟨hv, hf⟩
  | cons f fs ih =>
    intro s1 s2 hv hc hf
    obtain ⟨e1, e2, e3⟩ := subdivideFace_sim mid1 d1 mid2 d2 hv hc hf f
    rw [List.foldl_cons, List.foldl_cons]
    exact ih _ _ e1 e2 e3

theorem subdivideIter_sim {α β : Type} (mid1 : α → α → α) (d1 : α)
    (mid2 : β → β → β) (d2 : β) (n : ℕ) :
    ∀ (v1 : List α) (v2 : List β) (fs : List Face), v1.length = v2.length →
      (subdivideIter mid1 d1 n (v1, fs)).1.length =
          (subdivideIter mid2 d2 n (v2, fs)).1.length ∧
        (subdivideIter mid1 d1 n (v1, fs)).2 = (subdivideIter mid2 d2 n (v2, fs)).2 := by
  induction n with
  | zero => intro v1 v2 fs hv; exact ⟨hv, rfl⟩
  | succ n ih =>
    intro v1 v2 fs hv
    have step := foldl_subdivideFace_sim mid1 d1 mid2 d2 fs
      ((v1, []), []) ((v2, []), []) hv rfl rfl
    have e1 : subdivideIter mid1 d1 (n + 1) (v1, fs) =
        subdivideIter mid1 d1 n (subdivide mid1 d1 v1 fs) := rfl
    have e2 : subdivideIter mid2 d2 (n + 1) (v2, fs) =
        subdivideIter mid2 d2 n (subdivide mid2 d2 v2 fs) := rfl
    rw [e1, e2]
    have h1 : (subdivide mid1 d1 v1 fs).1.length = (subdivide mid2 d2 v2 fs).1.length :=
      step.1
    have h2 : (subdivide mid1 d1 v1 fs).2 = (subdivide mid2 d2 v2 fs).2 := step.2
    rcases hp1 : subdivide mid1 d1 v1 fs with ⟨a1, b1⟩
    rcases hp2 : subdivide mid2 d2 v2 fs with ⟨a2, b2⟩
    rw [hp1, hp2] at h1 h2
    simp only at h1 h2
    subst h2
    exact ih a1 a2 b1 h1

/-- The counts of `generateGeometry` agree with the computable `Unit` model. -/
theorem generateGeometry_counts (n : ℕ) :
    (generateGeometry n).1.length = (unitIcosphere n).1.length ∧
      (generateGeometry n).2 = (unitIcosphere n).2 := by
  have h12 : (BASE_VERTS.map normalize3).length = (List.replicate 12 ()).length := by
    simp [BASE_VERTS]
  have main := subdivideIter_sim midNormalize ⟨0, 0, 0⟩ (fun _ _ => ()) () n
    (BASE_VERTS.map normalize3) (List.replicate 12 ()) BASE_FACES h12
  unfold generateGeometry unitIcosphere
  simpa using main

set_option maxRecDepth 100000 in
theorem unitIcosphere_levels :
    (unitIcosphere 0).1.length = 12 ∧ (unitIcosphere 0).2.length = 20 ∧
      (unitIcosphere 1).1.length = 42 ∧ (unitIcosphere 1).2.length = 80 ∧
      (unitIcosphere 2).1.length = 162 ∧ (unitIcosphere 2).2.length = 320 :=
  ⟨rfl, rfl, rfl, rfl, rfl, rfl⟩

/-- C2 counterexample: at subdivision level 2 the generated mesh has 162
vertices and 320 faces, so not 642 and 1280 as claimed. -/
theorem c2_level2_counterexample :
    (generateGeometry 2).1.length = 162 ∧ (generateGeometry 2).2.length = 320 ∧
      ¬((generateGeometry 2).1.length = 642 ∧ (generateGeometry 2).2.length = 1280) := by
  obtain ⟨h1, h2⟩ := generateGeometry_counts 2
  have u1 : (unitIcosphere 2).1.length = 162 := unitIcosphere_levels.2.2.2.2.1
  have u2 : (unitIcosphere 2).2.length = 320 := unitIcosphere_levels.2.2.2.2.2
  refine ⟨h1.trans u1, ?_, ?_⟩
  · rw [h2]; exact u2
  · rintro ⟨e1, _⟩
    rw [h1, u1] at e1
    exact absurd e1 (by decide)

/-- C2 amended: each pass quadruples faces (`F' = 4F`) and adds one memoised
vertex per distinct edge (`V' = V + E`), for every vertex type; starting from
the icosahedron (12 vertices, 20 faces), the passes give 42 / 80 then
162 / 320, so subdivision level 2 yields 162 vertices and 1280 / 4 = 320
faces. -/
theorem c2_subdivision_counts :
    (∀ {α : Type} (mid : α → α → α) (d0 : α) (vs : List α) (fs : List Face),
      (subdivide mid d0 vs fs).2.length = 4 * fs.length ∧
      (subdivide mid d0 vs fs).1.length = vs.length + (distinctEdges fs).length) ∧
    (generateGeometry 0).1.length = 12 ∧ (generateGeometry 0).2.length = 20 ∧
    (generateGeometry 1).1.length = 42 ∧ (generateGeometry 1).2.length = 80 ∧
    (generateGeometry 2).1.length = 162 ∧ (generateGeometry 2).2.length = 320 := by
  refine ⟨fun mid d0 vs fs =>
    ⟨subdivide_faces_length mid d0 vs fs, subdivide_verts_length mid d0 vs fs⟩,
    ?_, ?_, ?_, ?_, ?_, ?_⟩
  · exact (generateGeometry_counts 0).1.trans unitIcosphere_levels.1
  · rw [(generateGeometry_counts 0).2]; exact unitIcosphere_levels.2.1
  · exact (generateGeometry_counts 1).1.trans unitIcosphere_levels.2.2.1
  · rw [(generateGeometry_counts 1).2]; exact unitIcosphere_levels.2.2.2.1
  · exact (generateGeometry_counts 2).1.trans unitIcosphere_levels.2.2.2.2.1
  · rw [(generateGeometry_counts 2).2]; exact unitIcosphere_levels.2.2.2.2.2

/-! # Claim C3: the FPS monitor downgrades monotonically, at most once -/

theorem fpsStep_latched (s : EngineState) (now : ℚ) (h : s.downgraded = true) :
    (fpsStep s now).tier = s.tier ∧ (fpsStep s now).downgraded = true := by
  simp only [fpsStep, h]
  split
  · split
    · rename_i hc
      exact absurd hc.2 (by simp)
    · exact ⟨rfl, rfl⟩
  · exact ⟨rfl, rfl⟩

theorem fpsStep_unlatched (s : EngineState) (now : ℚ) (h : s.downgraded = false) :
    ((fpsStep s now).downgraded = false ∧ (fpsStep s now).tier = s.tier) ∨
      ((fpsStep s now).downgraded = true ∧ (fpsStep s now).tier = downgradeTier s.tier ∧
        1000 ≤ now - s.lastCheck ∧
        ((s.frameCount + 1 : ℕ) : ℚ) * 1000 / (now - s.lastCheck) < 25) := by
  simp only [fpsStep, h]
  split
  · rename_i helapsed
    split
    · rename_i hc
      exact Or.inr ⟨rfl, rfl, helapsed, hc.1⟩
    · exact Or.inl ⟨rfl, rfl⟩
  · exact Or.inl ⟨rfl, rfl⟩

theorem fpsRun_latched (times : List ℚ) :
    ∀ s : EngineState, s.downgraded = true →
      (fpsRun s times).tier = s.tier ∧ (fpsRun s times).downgraded = true := by
  induction times with
  | nil => intro s h; exact ⟨rfl, h⟩
  | cons t ts ih =>
    intro s h
    have step := fpsStep_latched s t h
    have rest := ih (fpsStep s t) step.2
    exact ⟨rest.1.trans step.1, rest.2⟩

theorem fpsRun_cases (times : List ℚ) :
    ∀ s : EngineState,
      ((fpsRun s times).tier = s.tier ∧ (fpsRun s times).downgraded = s.downgraded) ∨
        (s.downgraded = false ∧ (fpsRun s times).downgraded = true ∧
          ((fpsRun s times).tier = s.tier ∨
            (fpsRun s times).tier = downgradeTier s.tier)) := by
  induction times with
  | nil => intro s; exact Or.inl ⟨rfl, rfl⟩
  | cons t ts ih =>
    intro s
    have hrun : fpsRun s (t :: ts) = fpsRun (fpsStep s t) ts := rfl
    rw [hrun]
    cases hd : s.downgraded with
    | true =>
      have step := fpsStep_latched s t hd
      have rest := fpsRun_latched ts (fpsStep s t) step.2
      exact Or.inl ⟨rest.1.trans step.1, rest.2⟩
    | false =>
      rcases fpsStep_unlatched s t hd with ⟨h1, h2⟩ | ⟨h1, h2, _⟩
      · rcases ih (fpsStep s t) with ⟨r1, r2⟩ | ⟨_, r2, r3⟩
        · exact Or.inl ⟨r1.trans h2, r2.trans h1⟩
        · refine Or.inr ⟨rfl, r2, ?_⟩
          rw [h2] at r3
          exact r3
      · have rest := fpsRun_latched ts (fpsStep s t) h1
        refine Or.inr ⟨rfl, rest.2, Or.inr ?_⟩
        rw [rest.1, h2]

theorem tierRank_downgrade (t : TierName) :
    tierRank (downgradeTier t) ≤ tierRank t ∧ tierRank t ≤ tierRank (downgradeTier t) + 1 := by
  cases t <;> exact ⟨by decide, by decide⟩

/-- C3: quality tier transitions are monotonically downward, happen at most
once per session, step exactly one level
(`HIGH → MEDIUM → LOW → MINIMAL`), and only fire when the windowed FPS is
below 25 with the downgrade latch unset; a latched session never changes
tier again, and no upgrade ever occurs. -/
theorem c3_quality_downgrade_monotonic :
    (∀ (s : EngineState) (now : ℚ), s.downgraded = true →
      (fpsStep s now).tier = s.tier ∧ (fpsStep s now).downgraded = true) ∧
    (∀ (s : EngineState) (now : ℚ), (fpsStep s now).tier ≠ s.tier →
      s.downgraded = false ∧ (fpsStep s now).downgraded = true ∧
        (fpsStep s now).tier = downgradeTier s.tier ∧ 1000 ≤ now - s.lastCheck ∧
        ((s.frameCount + 1 : ℕ) : ℚ) * 1000 / (now - s.lastCheck) < 25) ∧
    (∀ (s : EngineState) (now : ℚ), s.downgraded = false → 1000 ≤ now - s.lastCheck →
      ((s.frameCount + 1 : ℕ) : ℚ) * 1000 / (now - s.lastCheck) < 25 →
      (fpsStep s now).tier = downgradeTier s.tier ∧ (fpsStep s now).downgraded = true) ∧
    (∀ (s : EngineState) (times : List ℚ),
      tierRank (fpsRun s times).tier ≤ tierRank s.tier ∧
        tierRank s.tier ≤ tierRank (fpsRun s times).tier + 1 ∧
        ((fpsRun s times).tier ≠ s.tier →
          (fpsRun s times).downgraded = true ∧
            (fpsRun s times).tier = downgradeTier s.tier) ∧
        (s.downgraded = true → (fpsRun s times).tier = s.tier)) := by
  refine ⟨fpsStep_latched, ?_, ?_, ?_⟩
  · intro s now hne
    cases hd : s.downgraded with
    | true => exact absurd (fpsStep_latched s now hd).1 hne
    | false =>
      rcases fpsStep_unlatched s now hd with ⟨_, h2⟩ | ⟨h1, h2, h3, h4⟩
      · exact absurd h2 hne
      · exact ⟨rfl, h1, h2, h3, h4⟩
  · intro s now hd helapsed hfps
    simp only [fpsStep, hd]
    rw [if_pos helapsed, if_pos ⟨hfps, trivial⟩]
    exact ⟨rfl, rfl⟩
  · intro s times
    have hlat : s.downgraded = true → (fpsRun s times).tier = s.tier := fun hl =>
      (fpsRun_latched times s hl).1
    rcases fpsRun_cases times s with ⟨h1, _⟩ | ⟨h2, h3, h4 | h4⟩
    · exact ⟨le_of_eq (congrArg tierRank h1), by rw [h1]; exact Nat.le_succ _,
        fun hne => absurd h1 hne, hlat⟩
    · exact ⟨le_of_eq (congrArg tierRank h4), by rw [h4]; exact Nat.le_succ _,
        fun hne => absurd h4 hne, hlat⟩
    · exact ⟨by rw [h4]; exact (tierRank_downgrade s.tier).1,
        by rw [h4]; exact (tierRank_downgrade s.tier).2,
        fun _ => ⟨h3, h4⟩, hlat⟩

/-- Witness for C3: a HIGH unlatched session whose one-second window measures
11 FPS downgrades to MEDIUM and latches. -/
theorem c3_quality_downgrade_monotonic_witness :
    (fpsStep ⟨.HIGH, 10, 0, 60, false⟩ 1000).tier = .MEDIUM ∧
      (fpsStep ⟨.HIGH, 10, 0, 60, false⟩ 1000).downgraded = true :=
  c3_quality_downgrade_monotonic.2.2.1 ⟨.HIGH, 10, 0, 60, false⟩ 1000 rfl
    (by norm_num) (by norm_num)

/-! # Claim C5: traceSpectralRay terminates under two independent guards -/

/-- One attenuation step between consecutively drawn beams: the factor is
0.8 (wall reflection), 0.6 (total internal reflection) or 0.9 (hull exit). -/
def attenStep (b1 b2 : BeamRec) : Prop :=
  b2.alpha = b1.alpha * (8 / 10) ∨ b2.alpha = b1.alpha * (6 / 10) ∨
    b2.alpha = b1.alpha * (9 / 10)

/-- The one-step unfolding of `traceSpectralRay` at positive depth. -/
theorem traceSpectralRay_succ (hull : List (Vec2 ℝ)) (w h : ℝ) (band : Band)
    (d : ℕ) (s dir : Vec2 ℝ) (a : ℝ) :
    traceSpectralRay hull w h band (d + 1) s dir a =
      if a < 1 / 100 then []
      else
        match selectTarget (intersectRayHull (add s (mul dir 1)) dir hull none)
            (intersectRayBounds (add s (mul dir 1)) dir w h) with
        | .nothing => []
        | .wall wh =>
          ⟨s, wh.point, a⟩ ::
            traceSpectralRay hull w h band d wh.point (reflect dir wh.normal)
              (a * (8 / 10))
        | .onHull hh =>
          ⟨s, hh.point, a⟩ ::
            (match refract2D dir hh.normal N_AIR band.n with
            | none =>
              traceSpectralRay hull w h band d hh.point (reflect dir hh.normal)
                (a * (6 / 10))
            | some dIn =>
              match intersectRayHull (add hh.point (mul dIn (1 / 10))) dIn hull
                  (some hh.index) with
              | none => []
              | some exitHit =>
                match refract2D dIn exitHit.normal band.n N_AIR with
                | none => []
                | some dOut =>
                  traceSpectralRay hull w h band d exitHit.point dOut
                    (a * (9 / 10))) := rfl

theorem traceSpectralRay_props (hull : List (Vec2 ℝ)) (w h : ℝ) (band : Band) :
    ∀ (d : ℕ) (s dir : Vec2 ℝ) (a : ℝ),
      (traceSpectralRay hull w h band d s dir a).length ≤ d ∧
        (∀ b ∈ traceSpectralRay hull w h band d s dir a, 1 / 100 ≤ b.alpha) ∧
        List.Chain' attenStep (traceSpectralRay hull w h band d s dir a) ∧
        (∀ b, (traceSpectralRay hull w h band d s dir a).head? = some b →
          b.alpha = a) := by
  intro d
  induction d with
  | zero =>
    intro s dir a
    simp [traceSpectralRay]
  | succ d ih =>
    intro s dir a
    rw [traceSpectralRay_succ]
    by_cases ha : a < 1 / 100
    · rw [if_pos ha]
      simp
    · have ha' : 1 / 100 ≤ a := le_of_not_lt ha
      rw [if_neg ha]
      rcases hsel : selectTarget (intersectRayHull (add s (mul dir 1)) dir hull none)
          (intersectRayBounds (add s (mul dir 1)) dir w h) with wh | hh | _
      · obtain ⟨l1, l2, l3, l4⟩ := ih wh.point (reflect dir wh.normal) (a * (8 / 10))
        refine ⟨by simpa using Nat.succ_le_succ l1, ?_, ?_, by simp⟩
        · intro b hb
          rcases List.mem_cons.mp hb with hb | hb
          · rw [hb]; exact ha'
          · exact l2 b hb
        · refine List.chain'_cons'.mpr ⟨?_, l3⟩
          intro y hy
          exact Or.inl (l4 y hy)
      · rcases hr : refract2D dir hh.normal N_AIR band.n with _ | dIn
        · simp only [hr]
          obtain ⟨l1, l2, l3, l4⟩ := ih hh.point (reflect dir hh.normal) (a * (6 / 10))
          refine ⟨by simpa using Nat.succ_le_succ l1, ?_, ?_, by simp⟩
          · intro b hb
            rcases List.mem_cons.mp hb with hb | hb
            · rw [hb]; exact ha'
            · exact l2 b hb
          · refine List.chain'_cons'.mpr ⟨?_, l3⟩
            intro y hy
            exact Or.inr (Or.inl (l4 y hy))
        · simp only [hr]
          rcases hx : intersectRayHull (add hh.point (mul dIn (1 / 10))) dIn hull
              (some hh.index) with _ | exitHit
          · simp only [hx]
            exact ⟨by simp, by intro b hb; simp at hb; rw [hb]; exact ha',
              by simp [List.chain'_singleton], by simp⟩
          · simp only [hx]
            rcases ho : refract2D dIn exitHit.normal band.n N_AIR with _ | dOut
            · simp only [ho]
              exact ⟨by simp, by intro b hb; simp at hb; rw [hb]; exact ha',
                by simp [List.chain'_singleton], by simp⟩
            · simp only [ho]
              obtain ⟨l1, l2, l3, l4⟩ := ih exitHit.point dOut (a * (9 / 10))
              refine ⟨by simpa using Nat.succ_le_succ l1, ?_, ?_, by simp⟩
              · intro b hb
                rcases List.mem_cons.mp hb with hb | hb
                · rw [hb]; exact ha'
                · exact l2 b hb
              · refine List.chain'_cons'.mpr ⟨?_, l3⟩
                intro y hy
                exact Or.inr (Or.inr (l4 y hy))
      · simp

/-- C5: `traceSpectralRay` terminates under its two independent guards: depth
0 and alpha below the 0.01 floor each stop the recursion outright, at most
one beam is drawn per depth level (so at most `maxBounces` in total), every
drawn beam carries an alpha at or above the 0.01 floor, the first drawn beam
carries the incoming alpha, and consecutive beams attenuate multiplicatively
by 0.8, 0.6 or 0.9 according to the bounce event. -/
theorem c5_trace_termination :
    (∀ hull w h band (s dir : Vec2 ℝ) a,
      traceSpectralRay hull w h band 0 s dir a = []) ∧
    (∀ hull w h band d (s dir : Vec2 ℝ) a, a < 1 / 100 →
      traceSpectralRay hull w h band d s dir a = []) ∧
    (∀ hull w h band d (s dir : Vec2 ℝ) a,
      (traceSpectralRay hull w h band d s dir a).length ≤ d) ∧
    (∀ hull w h band d (s dir : Vec2 ℝ) a,
      ∀ b ∈ traceSpectralRay hull w h band d s dir a, 1 / 100 ≤ b.alpha) ∧
    (∀ hull w h band d (s dir : Vec2 ℝ) a,
      List.Chain' attenStep (traceSpectralRay hull w h band d s dir a)) ∧
    (∀ hull w h band d (s dir : Vec2 ℝ) a b,
      (traceSpectralRay hull w h band d s dir a).head? = some b → b.alpha = a) := by
  refine ⟨fun hull w h band s dir a => by simp [traceSpectralRay],
    fun hull w h band d s dir a ha => ?_,
    fun hull w h band d s dir a => (traceSpectralRay_props hull w h band d s dir a).1,
    fun hull w h band d s dir a => (traceSpectralRay_props hull w h band d s dir a).2.1,
    fun hull w h band d s dir a => (traceSpectralRay_props hull w h band d s dir a).2.2.1,
    fun hull w h band d s dir a => (traceSpectralRay_props hull w h band d s dir a).2.2.2⟩
  cases d with
  | zero => simp [traceSpectralRay]
  | succ d => rw [traceSpectralRay_succ, if_pos ha]

/-- Witness for C5: the alpha-floor guard fires at a concrete sub-floor
alpha. -/
theorem c5_trace_termination_witness :
    traceSpectralRay [] 100 100 ⟨"red", "#ff2a6d", 8 / 10, 142 / 100⟩ 4
      ⟨0, 0⟩ ⟨1, 0⟩ (1 / 200) = [] :=
  c5_trace_termination.2.1 [] 100 100 _ 4 ⟨0, 0⟩ ⟨1, 0⟩ (1 / 200) (by norm_num)

/-! # Claim C7: the spring integrator is stable -/

/-- A quadratic energy form for the tuned spring constants; the spring map
contracts it by the exact factor 107/125 per step. -/
def springQ (target : ℚ) (s : Spring) : ℚ :=
  (s.pos - target) ^ 2 + (209 / 1000) * (s.pos - target) * s.vel +
    (107 / 5000) * s.vel ^ 2

theorem springQ_decay (target : ℚ) (s : Spring) :
    springQ target (updateSpring s target) = (107 / 125) * springQ target s := by
  simp only [springQ, updateSpring, SPRING_MASS, SPRING_STIFFNESS, SPRING_DAMPING, SPRING_DT]
  ring

theorem springQ_nonneg (target : ℚ) (s : Spring) : 0 ≤ springQ target s := by
  have h1 := sq_nonneg (s.pos - target + (209 / 2000) * s.vel)
  have h2 := sq_nonneg s.vel
  unfold springQ
  nlinarith

theorem springQ_iter (target : ℚ) (s : Spring) :
    ∀ n : ℕ, springQ target (springIter target s n) = (107 / 125) ^ n * springQ target s := by
  intro n
  induction n with
  | zero => simp [springIter]
  | succ n ih =>
    have : springIter target s (n + 1) = updateSpring (springIter target s n) target := rfl
    rw [this, springQ_decay, ih]
    ring

theorem springQ_lower_pos (target : ℚ) (s : Spring) :
    (41919 / 85600) * (s.pos - target) ^ 2 ≤ springQ target s := by
  have h := sq_nonneg ((107 / 5000) * s.vel + (209 / 2000) * (s.pos - target))
  unfold springQ
  nlinarith

theorem springQ_lower_vel (target : ℚ) (s : Spring) :
    (41919 / 4000000) * s.vel ^ 2 ≤ springQ target s := by
  have h := sq_nonneg (s.pos - target + (209 / 2000) * s.vel)
  unfold springQ
  nlinarith

/-- C7: `updateSpring` realises the damped-spring law
`force = -stiffness*(pos - target) - damping*vel`, `vel += force/mass*dt`,
`pos += vel*dt` with the tuned constants (mass 2, stiffness 80, damping 18,
dt 0.016), and it is stable: from any initial state, with a constant target,
both the distance to the target and the velocity eventually stay below any
positive epsilon. -/
theorem c7_spring_stable :
    (∀ (s : Spring) (target : ℚ),
      (updateSpring s target).vel =
        s.vel + (-SPRING_STIFFNESS * (s.pos - target) - SPRING_DAMPING * s.vel) /
          SPRING_MASS * SPRING_DT ∧
      (updateSpring s target).pos = s.pos + (updateSpring s target).vel * SPRING_DT) ∧
    (∀ (s : Spring) (target ε : ℚ), 0 < ε →
      ∃ N : ℕ, ∀ n : ℕ, N ≤ n →
        |(springIter target s n).pos - target| < ε ∧ |(springIter target s n).vel| < ε) := by
  constructor
  · intro s target
    constructor
    · simp only [updateSpring]
      ring
    · simp only [updateSpring]
  · intro s target ε hε
    set Q0 := springQ target s with hQ0
    have hQ0nn : 0 ≤ Q0 := springQ_nonneg target s
    have hρ0 : (0 : ℚ) ≤ 107 / 125 := by norm_num
    have hρ1 : (107 / 125 : ℚ) < 1 := by norm_num
    have hδ : (0 : ℚ) < (41919 / 4000000) * ε ^ 2 / (Q0 + 1) := by positivity
    obtain ⟨N, hN⟩ := exists_pow_lt_of_lt_one hδ hρ1
    refine ⟨N, fun n hn => ?_⟩
    have hpow : (107 / 125 : ℚ) ^ n ≤ (107 / 125) ^ N :=
      pow_le_pow_of_le_one hρ0 (le_of_lt hρ1) hn
    have hQn : springQ target (springIter target s n) = (107 / 125) ^ n * Q0 :=
      springQ_iter target s n
    have hsmall : springQ target (springIter target s n) < (41919 / 4000000) * ε ^ 2 := by
      rw [hQn]
      rcases eq_or_lt_of_le hQ0nn with h0 | h0
      · rw [← h0, mul_zero]
        positivity
      · have h1 : (107 / 125 : ℚ) ^ n * Q0 ≤ (107 / 125) ^ N * Q0 :=
          mul_le_mul_of_nonneg_right hpow hQ0nn
        have h2 : (107 / 125 : ℚ) ^ N * Q0 < (41919 / 4000000) * ε ^ 2 / (Q0 + 1) * Q0 :=
          mul_lt_mul_of_pos_right hN h0
        have h3 : (41919 / 4000000 : ℚ) * ε ^ 2 / (Q0 + 1) * Q0 ≤ (41919 / 4000000) * ε ^ 2 := by
          rw [div_mul_eq_mul_div, div_le_iff₀ (by linarith)]
          nlinarith
        linarith
    have he := springQ_lower_pos target (springIter target s n)
    have hv := springQ_lower_vel target (springIter target s n)
    constructor
    · rw [abs_lt]
      constructor <;> nlinarith
    · rw [abs_lt]
      constructor <;> nlinarith

/-- Witness for C7 at a concrete initial state and epsilon. -/
theorem c7_spring_stable_witness :
    ∃ N : ℕ, ∀ n : ℕ, N ≤ n →
      |(springIter 5 ⟨0, 0⟩ n).pos - 5| < 1 ∧ |(springIter 5 ⟨0, 0⟩ n).vel| < 1 :=
  c7_spring_stable.2 ⟨0, 0⟩ 5 1 one_pos

/-! # Claim C1: refract2D -/

theorem dot_comm (a b : Vec2 ℝ) : dot a b = dot b a := by
  unfold dot
  ring

theorem len_sq_eq_one (v : Vec2 ℝ) (h : len v = 1) : v.x * v.x + v.y * v.y = 1 := by
  unfold len at h
  exact Real.sqrt_eq_one.mp h

theorem len_mul_neg_one (v : Vec2 ℝ) : len (mul v (-1)) = len v := by
  unfold len mul
  congr 1
  ring

theorem norm_of_len_one (v : Vec2 ℝ) (h : len v = 1) : norm v = v := by
  unfold norm
  rw [h, if_pos one_pos]
  cases v
  simp [mul]

/-- The refracted vector has unit length before the final `norm`, given unit
incident and normal vectors and a consistent `cosT`. -/
theorem refract_unit (dir N : Vec2 ℝ) (eta cosI cosT : ℝ)
    (hdir : dir.x * dir.x + dir.y * dir.y = 1)
    (hN : N.x * N.x + N.y * N.y = 1)
    (hdot : dir.x * N.x + dir.y * N.y = -cosI)
    (hct : cosT ^ 2 = 1 - eta * eta * (1 - cosI * cosI)) :
    len (add (mul dir eta) (mul N (eta * cosI - cosT))) = 1 := by
  unfold len add mul
  rw [show (dir.x * eta + N.x * (eta * cosI - cosT)) * (dir.x * eta + N.x * (eta * cosI - cosT)) +
      (dir.y * eta + N.y * (eta * cosI - cosT)) * (dir.y * eta + N.y * (eta * cosI - cosT)) =
      (1 : ℝ) from by
        linear_combination (eta ^ 2) * hdir + ((eta * cosI - cosT) ^ 2) * hN +
          (2 * eta * (eta * cosI - cosT)) * hdot + hct,
    Real.sqrt_one]

/-- C1: for unit `incident` and `normal` and positive indices, `refract2D`
returns `none` exactly when `sinT² = (n1/n2)²·(1 - cosI²) > 1` (with
`cosI = -dot(normal, incident)`), otherwise a unit-length direction; and when
`cosI < 0` the result agrees with the result for the flipped normal. -/
theorem c1_refract_spec (dir normal : Vec2 ℝ) (n1 n2 : ℝ)
    (hdir : len dir = 1) (hnormal : len normal = 1) (hn1 : 0 < n1) (hn2 : 0 < n2) :
    (refract2D dir normal n1 n2 = none ↔
      1 < (n1 / n2) * (n1 / n2) * (1 - (-dot normal dir) * (-dot normal dir))) ∧
    (∀ r, refract2D dir normal n1 n2 = some r → len r = 1) ∧
    (-dot normal dir < 0 →
      refract2D dir normal n1 n2 = refract2D dir (mul normal (-1)) n1 n2) := by
  have hdir2 := len_sq_eq_one dir hdir
  have hcosflip : -dot dir (mul normal (-1)) = dot dir normal := by
    unfold dot mul
    ring
  have hswap : dot dir normal = dot normal dir := dot_comm dir normal
  refine ⟨?_, ?_, ?_⟩
  · by_cases hc : -dot dir normal < 0
    · simp only [refract2D, if_pos hc]
      by_cases hs : 1 < n1 / n2 * (n1 / n2) *
          (1 - -dot dir (mul normal (-1)) * -dot dir (mul normal (-1)))
      · rw [if_pos hs]
        constructor
        · intro _
          rw [hcosflip, hswap] at hs
          nlinarith [hs]
        · intro _
          rfl
      · rw [if_neg hs]
        constructor
        · intro h
          exact absurd h (Option.some_ne_none _)
        · intro hcontra
          rw [hcosflip, hswap] at hs
          exact absurd (by nlinarith [hcontra]) hs
    · simp only [refract2D, if_neg hc]
      by_cases hs : 1 < n1 / n2 * (n1 / n2) * (1 - -dot dir normal * -dot dir normal)
      · rw [if_pos hs]
        constructor
        · intro _
          rw [hswap] at hs
          nlinarith [hs]
        · intro _
          rfl
      · rw [if_neg hs]
        constructor
        · intro h
          exact absurd h (Option.some_ne_none _)
        · intro hcontra
          rw [hswap] at hs
          exact absurd (by nlinarith [hcontra]) hs
  · intro r hr
    by_cases hc : -dot dir normal < 0
    · simp only [refract2D, if_pos hc] at hr
      by_cases hs : 1 < n1 / n2 * (n1 / n2) *
          (1 - -dot dir (mul normal (-1)) * -dot dir (mul normal (-1)))
      · rw [if_pos hs] at hr
        exact absurd hr (Option.noConfusion)
      · rw [if_neg hs] at hr
        have hN2 : (mul normal (-1)).x * (mul normal (-1)).x +
            (mul normal (-1)).y * (mul normal (-1)).y = 1 :=
          len_sq_eq_one _ ((len_mul_neg_one normal).trans hnormal)
        have hdot : dir.x * (mul normal (-1)).x + dir.y * (mul normal (-1)).y =
            -(-dot dir (mul normal (-1))) := by
          unfold dot mul
          ring
        have hct : Real.sqrt (1 - n1 / n2 * (n1 / n2) *
              (1 - -dot dir (mul normal (-1)) * -dot dir (mul normal (-1)))) ^ 2 =
            1 - n1 / n2 * (n1 / n2) *
              (1 - -dot dir (mul normal (-1)) * -dot dir (mul normal (-1))) :=
          Real.sq_sqrt (by linarith [le_of_not_lt hs])
        have hunit := refract_unit dir (mul normal (-1)) (n1 / n2)
          (-dot dir (mul normal (-1)))
          (Real.sqrt (1 - n1 / n2 * (n1 / n2) *
            (1 - -dot dir (mul normal (-1)) * -dot dir (mul normal (-1)))))
          hdir2 hN2 hdot (by rw [hct])
        have hr2 : r = add (mul dir (n1 / n2))
            (mul (mul normal (-1)) (n1 / n2 * -dot dir (mul normal (-1)) -
              Real.sqrt (1 - n1 / n2 * (n1 / n2) *
                (1 - -dot dir (mul normal (-1)) * -dot dir (mul normal (-1)))))) := by
          have := Option.some.inj hr
          rw [← this, norm_of_len_one _ hunit]
        rw [hr2]
        exact hunit
    · simp only [refract2D, if_neg hc] at hr
      by_cases hs : 1 < n1 / n2 * (n1 / n2) * (1 - -dot dir normal * -dot dir normal)
      · rw [if_pos hs] at hr
        exact absurd hr (Option.noConfusion)
      · rw [if_neg hs] at hr
        have hN2 : normal.x * normal.x + normal.y * normal.y = 1 :=
          len_sq_eq_one _ hnormal
        have hdot : dir.x * normal.x + dir.y * normal.y = -(-dot dir normal) := by
          unfold dot
          ring
        have hct : Real.sqrt (1 - n1 / n2 * (n1 / n2) *
              (1 - -dot dir normal * -dot dir normal)) ^ 2 =
            1 - n1 / n2 * (n1 / n2) * (1 - -dot dir normal * -dot dir normal) :=
          Real.sq_sqrt (by linarith [le_of_not_lt hs])
        have hunit := refract_unit dir normal (n1 / n2) (-dot dir normal)
          (Real.sqrt (1 - n1 / n2 * (n1 / n2) * (1 - -dot dir normal * -dot dir normal)))
          hdir2 hN2 hdot (by rw [hct])
        have hr2 : r = add (mul dir (n1 / n2))
            (mul normal (n1 / n2 * -dot dir normal -
              Real.sqrt (1 - n1 / n2 * (n1 / n2) *
                (1 - -dot dir normal * -dot dir normal)))) := by
          have := Option.some.inj hr
          rw [← this, norm_of_len_one _ hunit]
        rw [hr2]
        exact hunit
  · intro hflip
    have hc : -dot dir normal < 0 := by
      rw [dot_comm dir normal]
      exact hflip
    have hc2 : ¬(-dot dir (mul normal (-1)) < 0) := by
      rw [hcosflip]
      linarith
    simp only [refract2D, if_pos hc, if_neg hc2]

/-- Witness for C1 at a head-on unit configuration. -/
theorem c1_refract_spec_witness :
    ((refract2D ⟨0, 1⟩ ⟨0, -1⟩ 1 1 = none ↔
      1 < (1 / 1 : ℝ) * (1 / 1) *
        (1 - (-dot (⟨0, -1⟩ : Vec2 ℝ) ⟨0, 1⟩) * (-dot (⟨0, -1⟩ : Vec2 ℝ) ⟨0, 1⟩))) ∧
      (∀ r, refract2D ⟨0, 1⟩ ⟨0, -1⟩ 1 1 = some r → len r = 1) ∧
      (-dot (⟨0, -1⟩ : Vec2 ℝ) ⟨0, 1⟩ < 0 →
        refract2D ⟨0, 1⟩ ⟨0, -1⟩ 1 1 = refract2D ⟨0, 1⟩ (mul ⟨0, -1⟩ (-1)) 1 1)) :=
  c1_refract_spec ⟨0, 1⟩ ⟨0, -1⟩ 1 1 (by simp [len]) (by simp [len]) one_pos one_pos


/-! # Claim C9: the zero-direction primary ray degenerates gracefully -/

theorem norm_zero : norm ⟨0, 0⟩ = (⟨0, 0⟩ : Vec2 ℝ) := by
  unfold norm
  rw [if_neg]
  rw [show len ⟨0, 0⟩ = 0 from by simp [len]]
  exact lt_irrefl 0

theorem intersectRaySegment_zero_dir (origin p1 p2 : Vec2 ℝ) :
    intersectRaySegment origin ⟨0, 0⟩ p1 p2 = none := by
  simp only [intersectRaySegment]
  rw [if_pos]
  rw [show dot (sub p2 p1) ⟨-(⟨0, 0⟩ : Vec2 ℝ).y, (⟨0, 0⟩ : Vec2 ℝ).x⟩ = 0 from by
    simp [dot, sub]]
  rw [abs_zero]
  norm_num

theorem intersectRayHull_zero_dir (origin : Vec2 ℝ) (hull : List (Vec2 ℝ))
    (ig : Option ℕ) : intersectRayHull origin ⟨0, 0⟩ hull ig = none := by
  unfold intersectRayHull
  by_cases h0 : hull.length = 0
  · rw [if_pos h0]
  · rw [if_neg h0]
    simp only []
    generalize List.range hull.length = l
    induction l with
    | nil => rfl
    | cons i l ih =>
      rw [List.foldl_cons]
      have hstep :
          (if ig = some i then (none : Option HullHit)
            else
              match intersectRaySegment origin ⟨0, 0⟩ (hull.getD i ⟨0, 0⟩)
                  (hull.getD ((i + 1) % hull.length) ⟨0, 0⟩) with
              | none => none
              | some hit =>
                if 1 / 1000 < hit.t then
                  some ⟨hit.t, hit.point,
                    edgeNormal (hull.getD i ⟨0, 0⟩)
                      (hull.getD ((i + 1) % hull.length) ⟨0, 0⟩) (hullCenter hull), i⟩
                else none) = none := by
        by_cases hig : ig = some i
        · rw [if_pos hig]
        · rw [if_neg hig, intersectRaySegment_zero_dir]
      rw [hstep]
      exact ih

/-- C9: when the pointer sits at the canvas centre the primary ray direction
is the normalisation of the zero vector, which is the zero vector; every
ray–segment and ray–hull query with the zero direction reports no hit via the
degenerate-determinant branch; and the frame entry test then leaves the
spectral path unentered and pulls `globalAlpha` toward 0 (by the factor
9/10), never up. -/
theorem c9_center_pointer_degenerates :
    norm ⟨0, 0⟩ = (⟨0, 0⟩ : Vec2 ℝ) ∧
    (∀ origin p1 p2 : Vec2 ℝ, intersectRaySegment origin ⟨0, 0⟩ p1 p2 = none) ∧
    (∀ (origin : Vec2 ℝ) (hull : List (Vec2 ℝ)) (ig : Option ℕ),
      intersectRayHull origin ⟨0, 0⟩ hull ig = none) ∧
    (∀ (w h : ℝ) (hull : List (Vec2 ℝ)) (g : ℝ) (mb : ℕ),
      (frameEntry ⟨w / 2, h / 2⟩ w h hull g mb).rayDir = ⟨0, 0⟩ ∧
        (frameEntry ⟨w / 2, h / 2⟩ w h hull g mb).entryHit = none ∧
        (frameEntry ⟨w / 2, h / 2⟩ w h hull g mb).spectral = none ∧
        (frameEntry ⟨w / 2, h / 2⟩ w h hull g mb).globalAlpha = (9 / 10) * g ∧
        (0 ≤ g → (frameEntry ⟨w / 2, h / 2⟩ w h hull g mb).globalAlpha ≤ g)) := by
  refine ⟨norm_zero, intersectRaySegment_zero_dir, intersectRayHull_zero_dir, ?_⟩
  intro w h hull g mb
  have hsub : sub (⟨w / 2, h / 2⟩ : Vec2 ℝ) ⟨w / 2, h / 2⟩ = (⟨0, 0⟩ : Vec2 ℝ) := by
    simp [sub]
  refine ⟨?_, ?_, ?_, ?_, ?_⟩
  · simp only [frameEntry, hsub, norm_zero]
  · simp only [frameEntry, hsub, norm_zero, intersectRayHull_zero_dir]
  · simp only [frameEntry, hsub, norm_zero, intersectRayHull_zero_dir]
  · simp only [frameEntry, hsub, norm_zero, intersectRayHull_zero_dir,
      Option.isSome_none, Bool.false_eq_true, if_false]
    ring
  · intro hg
    simp only [frameEntry, hsub, norm_zero, intersectRayHull_zero_dir,
      Option.isSome_none, Bool.false_eq_true, if_false]
    nlinarith

/-- Witness for C9's conditional part at a concrete non-negative alpha. -/
theorem c9_center_pointer_degenerates_witness :
    (frameEntry ⟨2 / 2, 2 / 2⟩ 2 2 [] 1 4).globalAlpha ≤ 1 :=
  ((c9_center_pointer_degenerates.2.2.2 2 2 [] 1 4).2.2.2.2) zero_le_one

/-! # Claim C6: the per-frame entry test -/

/-- C6: on a miss frame `globalAlpha` is smoothed toward 0 by the factor
9/10 (no snap), the spectral dispersion path is not entered (no internal
beams), the only beam endpoint is the miss beam extending `max w h` past the
pointer along the ray, and the white beam is drawn exactly when the updated
alpha clears 0.001; on a hit frame `globalAlpha` is smoothed toward 1 and
(for a non-negative incoming alpha) the spectral loop runs over the whole
`SPECTRUM` with the tier bounce budget. -/
theorem c6_entry_test (mouse : Vec2 ℝ) (w h : ℝ) (hull : List (Vec2 ℝ)) (g : ℝ)
    (mb : ℕ) :
    ((frameEntry mouse w h hull g mb).entryHit = none →
      (frameEntry mouse w h hull g mb).globalAlpha = (9 / 10) * g ∧
        (frameEntry mouse w h hull g mb).spectral = none ∧
        (frameEntry mouse w h hull g mb).beamEnd =
          add mouse (mul (frameEntry mouse w h hull g mb).rayDir (max w h)) ∧
        ((frameEntry mouse w h hull g mb).whiteBeamDrawn = true ↔
          1 / 1000 < (9 / 10) * g)) ∧
    (∀ e, (frameEntry mouse w h hull g mb).entryHit = some e →
      (frameEntry mouse w h hull g mb).globalAlpha = g + (1 - g) * (1 / 10) ∧
        (frameEntry mouse w h hull g mb).beamEnd = e.point ∧
        (0 ≤ g →
          (frameEntry mouse w h hull g mb).spectral =
            some (spectralLoop hull w h (frameEntry mouse w h hull g mb).rayDir e
              ((frameEntry mouse w h hull g mb).globalAlpha) mb))) := by
  simp only [frameEntry]
  rcases hE : intersectRayHull mouse (norm (sub ⟨w / 2, h / 2⟩ mouse)) hull none
    with _ | e
  · refine ⟨fun _ => ⟨by simp; ring, by simp, by simp, ?_⟩, fun e he => ?_⟩
    · simp only [Option.isSome_none, Bool.false_eq_true, if_false,
        decide_eq_true_eq]
      constructor
      · intro hlt
        calc (1 : ℝ) / 1000 < g + (0 - g) * (1 / 10) := hlt
        _ = (9 / 10) * g := by ring
      · intro hlt
        calc (1 : ℝ) / 1000 < (9 / 10) * g := hlt
        _ = g + (0 - g) * (1 / 10) := by ring
    · simp at he
  · refine ⟨fun hnone => by simp at hnone, fun e2 he2 => ?_⟩
    simp only [Option.some.injEq] at he2
    subst he2
    refine ⟨by simp, by simp, fun hg => ?_⟩
    have hga : (1 : ℝ) / 100 < g + (1 - g) * (1 / 10) := by nlinarith
    simp only [Option.isSome_some, if_true, if_pos hga]

/-- Witness for C6 at a concrete miss frame (empty hull). -/
theorem c6_entry_test_witness :
    (frameEntry ⟨0, 0⟩ 100 100 [] 1 4).globalAlpha = (9 / 10) * 1 ∧
      (frameEntry ⟨0, 0⟩ 100 100 [] 1 4).spectral = none ∧
      (frameEntry ⟨0, 0⟩ 100 100 [] 1 4).beamEnd =
        add ⟨0, 0⟩ (mul (frameEntry ⟨0, 0⟩ 100 100 [] 1 4).rayDir (max 100 100)) ∧
      ((frameEntry ⟨0, 0⟩ 100 100 [] 1 4).whiteBeamDrawn = true ↔
        (1 : ℝ) / 1000 < (9 / 10) * 1) :=
  (c6_entry_test ⟨0, 0⟩ 100 100 [] 1 4).1 (by simp [frameEntry, intersectRayHull])


/-- C4: for every finite list of 2D points, `getConvexHull` returns a
polygon such that every input point lies on or inside it, and applying
`getConvexHull` twice is idempotent: the second application returns the
same point set as the first. -/
theorem c4_hull_containment_idempotent {α : Type} [LinearOrderedField α]
    (pts : List (Vec2 α)) :
    (∀ p ∈ pts, insideOn (getConvexHull pts) p) ∧
      (∀ x, x ∈ getConvexHull (getConvexHull pts) ↔ x ∈ getConvexHull pts) :=
  ⟨hull_containment pts, hull_idempotent pts⟩

/-- Witness for C4 at the unit-square corner list over ℚ. -/
theorem c4_hull_containment_idempotent_witness :
    insideOn (getConvexHull [(⟨0, 0⟩ : Vec2 ℚ), ⟨4, 0⟩, ⟨4, 4⟩, ⟨0, 4⟩]) ⟨0, 0⟩ ∧
      ((⟨0, 0⟩ : Vec2 ℚ) ∈
          getConvexHull (getConvexHull [(⟨0, 0⟩ : Vec2 ℚ), ⟨4, 0⟩, ⟨4, 4⟩, ⟨0, 4⟩]) ↔
        (⟨0, 0⟩ : Vec2 ℚ) ∈ getConvexHull [(⟨0, 0⟩ : Vec2 ℚ), ⟨4, 0⟩, ⟨4, 4⟩, ⟨0, 4⟩]) :=
  ⟨(c4_hull_containment_idempotent [⟨0, 0⟩, ⟨4, 0⟩, ⟨4, 4⟩, ⟨0, 4⟩]).1 ⟨0, 0⟩
      (List.mem_cons_self _ _),
    (c4_hull_containment_idempotent [⟨0, 0⟩, ⟨4, 0⟩, ⟨4, 4⟩, ⟨0, 4⟩]).2 ⟨0, 0⟩⟩

end PrismScene
